import Mathlib

/-!
# MTree: an M-ary search tree with node-local splits

A shallow embedding of `src/project4.cpp` (class `MTree<int>`), followed by the
properties of the specification that were checked against it.

Modelling conventions.

* A node is `MTree.node M values children`.  Child pointers are owned and the
  program never stores a null pointer in `children`, so a child is a tree.
* Keys are `Int` (the driver instantiates `DT = int`; no arithmetic is done on keys).
* Member functions that mutate the receiver take the receiver and return a
  `Res`: the receiver as the call leaves it, and the exception that escaped
  the call, if any.
* An access past the end of a vector is undefined in C++; the model stops
  there with `Exn.outOfRange`.
* Loops over `int` indices run on `Int`; vector sizes stay far below `2^31`,
  so index arithmetic does not wrap.
-/

/-- The node of an M-ary search tree: branching factor, keys, children. -/
inductive MTree where
  | node (M : Int) (values : List Int) (children : List MTree) : MTree

/-- What a call can raise. `duplicateInsertion` and `notFound` are the two exception
classes of the source, `runtimeError` is the `std::runtime_error` of `findMin`/`findMax`,
`outOfRange` marks an access past the end of a vector. -/
inductive Exn where
  | duplicateInsertion
  | notFound
  | runtimeError
  | outOfRange
deriving DecidableEq

/-- The receiver after a call, and the exception the call raised (`none`: it returned). -/
structure Res where
  tree : MTree
  raised : Option Exn

namespace MTree

/-- The field `M` of a node. -/
def order : MTree → Int
  | node M _ _ => M

/-- The loop of `binarySearch`. `none` stands for running out of fuel or reading
outside `values`; `binarySearchLoop_total` shows neither happens from the initial state. -/
def binarySearchLoop (values : List Int) (value : Int) : Nat → Int → Int → Option Int
  | 0, _, _ => none
  | fuel + 1, left, right =>
    if left ≤ right then
      let mid := left + (right - left) / 2
      match values[mid.toNat]? with
      | none => none
      | some x =>
        if x = value then some mid
        else if x < value then binarySearchLoop values value fuel (mid + 1) right
        else binarySearchLoop values value fuel left (mid - 1)
    else some (-1)

/-- The source's `binarySearch`: index of `value` in the node's keys, or `-1`. -/
def binarySearch (values : List Int) (value : Int) : Int :=
  (binarySearchLoop values value (values.length + 1) 0 ((values.length : Int) - 1)).getD (-1)

/-- The loop of `binarySearchHelper`; differs from `binarySearchLoop` in returning `left`
when the interval is empty (`binarySearchHelperLoop_total`: it returns, within `0..size`). -/
def binarySearchHelperLoop (values : List Int) (value : Int) : Nat → Int → Int → Option Int
  | 0, _, _ => none
  | fuel + 1, left, right =>
    if left ≤ right then
      let mid := left + (right - left) / 2
      match values[mid.toNat]? with
      | none => none
      | some x =>
        if x = value then some mid
        else if x < value then binarySearchHelperLoop values value fuel (mid + 1) right
        else binarySearchHelperLoop values value fuel left (mid - 1)
    else some left

/-- The source's `binarySearchHelper`: index of `value`, or else the insertion index. -/
def binarySearchHelper (values : List Int) (value : Int) : Int :=
  (binarySearchHelperLoop values value (values.length + 1) 0 ((values.length : Int) - 1)).getD 0

/-- The source's `is_leaf`. -/
def is_leaf : MTree → Bool
  | node _ _ children => children.isEmpty

mutual
/-- The source's `search`. -/
def search : MTree → Int → Bool
  | node _ values children, value =>
    let foundIndex := binarySearch values value
    if foundIndex ≥ 0 then true
    else if children.isEmpty then false
    else
      let index := binarySearchHelper values value
      if index < 0 ∨ index ≥ (children.length : Int) then false
      else searchAt children index.toNat value
/-- The call `children[index]->search(value)`. -/
def searchAt : List MTree → Nat → Int → Bool
  | [], _, _ => false
  | c :: _, 0, value => search c value
  | _ :: cs, i + 1, value => searchAt cs i value
end

/-- The source's `find`. -/
def find (t : MTree) (value : Int) : Bool := search t value

/-- The source's `findMin`: follow `children.front()` down to a leaf. -/
def findMin : MTree → Except Exn Int
  | node _ values [] =>
    match values with
    | [] => .error .runtimeError
    | v :: _ => .ok v
  | node _ _ (c :: _) => findMin c

mutual
/-- The source's `findMax`: follow `children.back()` down to a leaf. -/
def findMax : MTree → Except Exn Int
  | node _ values [] =>
    match values.getLast? with
    | none => .error .runtimeError
    | some v => .ok v
  | node _ _ (c :: cs) => findMaxBack (c :: cs)
/-- The step `currentNode = currentNode->children.back()`; `back()` of an empty vector is
out of range (the loop only takes the step on a node that is not a leaf). -/
def findMaxBack : List MTree → Except Exn Int
  | [] => .error .outOfRange
  | [c] => findMax c
  | _ :: c :: cs => findMaxBack (c :: cs)
end

mutual
/-- The source's `inOrderTraversal`, appending to `result`. -/
def inOrderTraversal : MTree → List Int → Except Exn (List Int)
  | node _ values [], result => .ok (result ++ values)
  | node _ values (c :: cs), result => inOrderLoop values (c :: cs) result
/-- The loop of `inOrderTraversal` in an internal node, at key index `i`, on the keys and
children from `i` on; when the keys are used up, `children.back()` is visited if a child is left. -/
def inOrderLoop : List Int → List MTree → List Int → Except Exn (List Int)
  | [], [], result => .ok result
  | [], [c], result => inOrderTraversal c result
  | [], _ :: c :: cs, result => inOrderLoop [] (c :: cs) result
  | _ :: _, [], _ => .error .outOfRange
  | v :: vs, c :: cs, result =>
    match inOrderTraversal c result with
    | .error e => .error e
    | .ok r => inOrderLoop vs cs (r ++ [v])
end

/-- The source's `collect_values`. -/
def collect_values (t : MTree) : Except Exn (List Int) := inOrderTraversal t []

/-- The call `values.insert(values.begin() + index, value)`; the index comes from
`binarySearchHelper`, so it is at most `values.size()` (`binarySearchHelper_range`). -/
def insertAt (values : List Int) (index : Nat) (value : Int) : List Int :=
  values.take index ++ value :: values.drop index

/-- The source's `split_node`. -/
def split_node : MTree → Res
  | node M values children =>
    let midIndex := values.length / 2
    match values[midIndex]? with
    | none => ⟨node M values children, some .outOfRange⟩
    | some elementToPromote =>
      let leftValues := values.take midIndex
      let rightValues := values.drop (midIndex + 1)
      if children.isEmpty then
        ⟨node M [elementToPromote] [node M leftValues [], node M rightValues []], none⟩
      else if midIndex + 1 ≤ children.length then
        ⟨node M [elementToPromote]
          [node M leftValues (children.take (midIndex + 1)),
           node M rightValues (children.drop (midIndex + 1))], none⟩
      else ⟨node M values children, some .outOfRange⟩

/-- The test `values.size() >= M`. The `int` `M` is converted to `size_t`, so a negative
`M` compares as a number above every vector size and the test fails. -/
def reachedCapacity (M : Int) (values : List Int) : Bool :=
  decide (0 ≤ M ∧ M ≤ (values.length : Int))

/-- The tail of `insertValue`: `if (values.size() >= M) split_node();`. -/
def splitIfFull : MTree → Res
  | node M values children =>
    if reachedCapacity M values then split_node (node M values children)
    else ⟨node M values children, none⟩

mutual
/-- The source's `insertValue`. -/
def insertValue : MTree → Int → Res
  | node M values children, value =>
    if search (node M values children) value then
      ⟨node M values children, some .duplicateInsertion⟩
    else
      let index := binarySearchHelper values value
      if children.isEmpty then
        splitIfFull (node M (insertAt values index.toNat value) children)
      else
        match insertValueAt children index.toNat value with
        | (children', some e) => ⟨node M values children', some e⟩
        | (children', none) => splitIfFull (node M values children')
/-- The call `children[index]->insertValue(value)`: the children afterwards and what it raised. -/
def insertValueAt : List MTree → Nat → Int → List MTree × Option Exn
  | [], _, _ => ([], some .outOfRange)
  | c :: cs, 0, value => ((insertValue c value).tree :: cs, (insertValue c value).raised)
  | c :: cs, i + 1, value => (c :: (insertValueAt cs i value).1, (insertValueAt cs i value).2)
end

/-- The loop of `buildTree`: insert the keys one at a time, in the given order. -/
def insertAll : MTree → List Int → Res
  | t, [] => ⟨t, none⟩
  | t, x :: xs =>
    match insertValue t x with
    | ⟨t', none⟩ => insertAll t' xs
    | ⟨t', some e⟩ => ⟨t', some e⟩

/-- The source's `buildTree`: drop the keys and children, then insert the input. -/
def buildTree : MTree → List Int → Res
  | node M _ _, inputValues => insertAll (node M [] []) inputValues

/-- The two lines `vector<DT> tree = collect_values(); buildTree(tree);` of `remove`. -/
def rebuild (t : MTree) : Res :=
  match collect_values t with
  | .error e => ⟨t, some e⟩
  | .ok tree => buildTree t tree

mutual
/-- The source's `remove`. In `index < values.size() - 1` the index is non-negative and was
found in `values`, so `values.size() - 1` does not wrap. -/
def remove : MTree → Int → Res
  | node M values children, value =>
    if !search (node M values children) value then
      ⟨node M values children, some .notFound⟩
    else
      let index := binarySearch values value
      if children.isEmpty then
        if index ≥ 0 ∧ values[index.toNat]? = some value then
          ⟨node M (values.eraseIdx index.toNat) children, none⟩
        else ⟨node M values children, none⟩
      else if index ≥ 0 then
        if index < (values.length : Int) - 1 then
          match children[(index + 1).toNat]? with
          | none => ⟨node M values children, some .outOfRange⟩
          | some c =>
            match findMin c with
            | .error e => ⟨node M values children, some e⟩
            | .ok minValue =>
              match removeAt children (index + 1).toNat minValue with
              | (children', some e) => ⟨node M (values.set index.toNat minValue) children', some e⟩
              | (children', none) => rebuild (node M (values.set index.toNat minValue) children')
        else
          match children[index.toNat]? with
          | none => ⟨node M values children, some .outOfRange⟩
          | some c =>
            match findMax c with
            | .error e => ⟨node M values children, some e⟩
            | .ok maxValue =>
              match removeAt children index.toNat maxValue with
              | (children', some e) => ⟨node M (values.set index.toNat maxValue) children', some e⟩
              | (children', none) => rebuild (node M (values.set index.toNat maxValue) children')
      else
        let childIndex := binarySearchHelper values value
        match removeAt children childIndex.toNat value with
        | (children', e) => ⟨node M values children', e⟩
/-- The call `children[index]->remove(value)`: the children afterwards and what it raised. -/
def removeAt : List MTree → Nat → Int → List MTree × Option Exn
  | [], _, _ => ([], some .outOfRange)
  | c :: cs, 0, value => ((remove c value).tree :: cs, (remove c value).raised)
  | c :: cs, i + 1, value => (c :: (removeAt cs i value).1, (removeAt cs i value).2)
end

/-- The constructor `MTree(maxChildren)`: an empty leaf. -/
def fresh (M : Int) : MTree := node M [] []

/-! ### The data model of the specification -/

mutual
/-- Every key stored in the subtree: the node's own keys, then those of each child. -/
def allKeys : MTree → List Int
  | node _ values children => values ++ allKeysList children
/-- The keys stored in a list of subtrees. -/
def allKeysList : List MTree → List Int
  | [] => []
  | c :: cs => allKeys c ++ allKeysList cs
end

mutual
/-- The node itself and every node below it. -/
def subtrees : MTree → List MTree
  | node M values children => node M values children :: subtreesList children
/-- The nodes of a list of subtrees. -/
def subtreesList : List MTree → List MTree
  | [] => []
  | c :: cs => subtrees c ++ subtreesList cs
end

/-- For every key index `i`: the keys of `children[i]` are below `values[i]` and the keys of
`children[i+1]` are above it. With `values` increasing and one more child than keys this says
that `children[i]` holds only keys strictly between `values[i-1]` and `values[i]`. -/
def boundsOK : List Int → List MTree → Bool
  | v :: vs, c :: c' :: cs =>
    (allKeys c).all (fun k => decide (k < v)) && (allKeys c').all (fun k => decide (v < k))
      && boundsOK vs (c' :: cs)
  | _, _ => true

mutual
/-- The well-formed trees of the data model, for the branching factor `M`: every node carries
`M`, has strictly increasing keys, is a leaf or has one more child than keys, and keeps the
keys of its children between its own. -/
def wellFormed (M : Int) : MTree → Bool
  | node M' values children =>
    decide (M' = M) && decide (values.Pairwise (fun a b => a < b))
      && (children.isEmpty || decide (children.length = values.length + 1))
      && boundsOK values children && wellFormedAll M children
/-- Every tree of the list is well-formed. -/
def wellFormedAll (M : Int) : List MTree → Bool
  | [] => true
  | c :: cs => wellFormed M c && wellFormedAll M cs
end

mutual
/-- The in-order key sequence of a tree whose internal nodes have one more child than keys:
what `collect_values` returns on it (`collect_values_eq_flat`). -/
def flat : MTree → List Int
  | node _ values [] => values
  | node _ values (c :: cs) => weave values (c :: cs)
/-- The keys of an internal node interleaved with the sequences of its children. -/
def weave : List Int → List MTree → List Int
  | _, [] => []
  | [], c :: _ => flat c
  | v :: vs, c :: cs => flat c ++ v :: weave vs cs
end

/-- The bounds of `boundsOK`, by index. -/
def Between (values : List Int) (children : List MTree) : Prop :=
  (∀ (j : Nat) (c : MTree) (x : Int), children[j]? = some c → values[j]? = some x →
    ∀ k ∈ allKeys c, k < x) ∧
  (∀ (j : Nat) (c : MTree) (x : Int), children[j + 1]? = some c → values[j]? = some x →
    ∀ k ∈ allKeys c, x < k)

/-- The state of the two binary-search loops: keys left of `left` are below `value`, keys
right of `right` are above it. -/
structure Window (values : List Int) (value : Int) (left right : Int) : Prop where
  left_nonneg : 0 ≤ left
  right_lt : right < values.length
  le_succ : left ≤ right + 1
  below : ∀ (j : Nat) (x : Int), values[j]? = some x → (j : Int) < left → x < value
  above : ∀ (j : Nat) (x : Int), values[j]? = some x → right < (j : Int) → value < x

/-- The tree of the specification's scenario: `buildTree` of `[1,2,3,4,5,6,7]` with `M = 3`. -/
def scenarioTree : MTree :=
  node 3 [2] [node 3 [1] [],
    node 3 [4] [node 3 [3] [], node 3 [6] [node 3 [5] [], node 3 [7] []]]]

/-- What `buildTree` of `[1,2,3]` with `M = 3` followed by `remove(1)` leaves: the key `2`
over an emptied left leaf. -/
def emptiedLeafTree : MTree :=
  node 3 [2] [node 3 [] [], node 3 [3] []]

/-- The keys of the leaf `findMin` stops at: follow the first child down to a leaf. -/
def leftmostLeafKeys : MTree → List Int
  | node _ values [] => values
  | node _ _ (c :: _) => leftmostLeafKeys c

mutual
/-- The keys of the leaf `findMax` stops at: follow the last child down to a leaf. -/
def rightmostLeafKeys : MTree → List Int
  | node _ values [] => values
  | node _ _ (c :: cs) => rightmostLeafKeysBack (c :: cs)
/-- The step to the last child. -/
def rightmostLeafKeysBack : List MTree → List Int
  | [] => []
  | [c] => rightmostLeafKeys c
  | _ :: c :: cs => rightmostLeafKeysBack (c :: cs)
end

mutual
/-- The keys stored in the leaves of a tree. -/
def leafKeys : MTree → List Int
  | node _ values [] => values
  | node _ _ (c :: cs) => leafKeysList (c :: cs)
/-- The keys stored in the leaves of a list of trees. -/
def leafKeysList : List MTree → List Int
  | [] => []
  | c :: cs => leafKeys c ++ leafKeysList cs
end

mutual
/-- The tree with `k` erased from the key list of every leaf; internal keys and the child
structure are kept as they are. In a well-formed tree at most one leaf holds `k`. -/
def eraseInLeaf : MTree → Int → MTree
  | node M values [], k => node M (values.erase k) []
  | node M values (c :: cs), k => node M values (eraseInLeafList (c :: cs) k)
/-- The same on a list of trees. -/
def eraseInLeafList : List MTree → Int → List MTree
  | [], _ => []
  | c :: cs, k => eraseInLeaf c k :: eraseInLeafList cs k
end

mutual
/-- The shape that `insertValue`, `remove` and `buildTree` keep: a leaf holds fewer than `M`
keys, an internal node holds one key and two children. -/
def compact (M : Int) : MTree → Bool
  | node _ values children =>
    (if children.isEmpty then decide ((values.length : Int) < M)
      else decide (values.length = 1 ∧ children.length = 2)) && compactAll M children
/-- Every tree of the list is compact. -/
def compactAll (M : Int) : List MTree → Bool
  | [] => true
  | c :: cs => compact M c && compactAll M cs
end

/-- The removal of an internal key as the specification words it: what `buildTree` makes on
a fresh `MTree(M)` from the previous `collect_values()` without `k`. -/
def rebuiltWithout (M : Int) (xs : List Int) (k : Int) : Res :=
  buildTree (fresh M) (xs.erase k)

/-- The key `k` is a key of an internal node of `t` whose left neighbour subtree has an empty
rightmost leaf. -/
def keyOverEmptyLeaf (t : MTree) (k : Int) : Prop :=
  ∃ (M' : Int) (values : List Int) (children : List MTree) (i : Nat) (l : MTree),
    node M' values children ∈ subtrees t ∧ children ≠ [] ∧ values[i]? = some k ∧
      children[i]? = some l ∧ rightmostLeafKeys l = []

/-- What `buildTree` of `[1,2,3]` with `M = 3` followed by `remove(3)` leaves: the key `2`
over an emptied right leaf. -/
def emptiedRightLeafTree : MTree :=
  node 3 [2] [node 3 [1] [], node 3 [] []]

/-- A chain through right children: every internal node holds one key, a leaf as its left
child and the rest of the chain as its right child; the chain ends in the leaf `last`. The
chain is given by the left leaf and the key of each internal node, from the root down. -/
def spineTree (M : Int) : List (List Int × Int) → List Int → MTree
  | [], last => node M last []
  | (l, k) :: rest, last => node M [k] [node M l [], spineTree M rest last]

mutual
/-- The number of internal nodes of a tree. -/
def internalCount : MTree → Nat
  | node _ _ [] => 0
  | node _ _ (c :: cs) => 1 + internalCountList (c :: cs)
/-- The number of internal nodes in a list of trees. -/
def internalCountList : List MTree → Nat
  | [] => 0
  | c :: cs => internalCount c + internalCountList cs
end

/-- How many internal nodes `h` the chain has and how many keys `l` its last leaf holds after
`n` keys were inserted in increasing order, for the branching factor `m`: no internal node
below `m` keys, then one more for every `m / 2 + 1` further keys. -/
def SpineCount (m n h l : Nat) : Prop :=
  (n < m ∧ h = 0 ∧ l = n) ∨
  ∃ q r, r < m / 2 + 1 ∧ n = m + q * (m / 2 + 1) + r ∧ h = q + 1 ∧ l = m - (m / 2 + 1) + r

/-- The trees a program can hold: start from `MTree(M)` and apply calls of `insertValue`,
`remove` and `buildTree` (on distinct keys) that return normally. -/
inductive Reachable (M : Int) : MTree → Prop where
  | fresh : Reachable M (fresh M)
  | insertValue {t t' : MTree} (value : Int) :
      Reachable M t → insertValue t value = ⟨t', none⟩ → Reachable M t'
  | remove {t t' : MTree} (value : Int) :
      Reachable M t → remove t value = ⟨t', none⟩ → Reachable M t'
  | buildTree {t t' : MTree} (inputValues : List Int) :
      Reachable M t → inputValues.Nodup → buildTree t inputValues = ⟨t', none⟩ → Reachable M t'

end MTree

namespace MTree

/-! ### Induction over trees -/

theorem induct {P : MTree → Prop}
    (h : ∀ M values children, (∀ c ∈ children, P c) → P (node M values children)) :
    ∀ t, P t :=
  @MTree.rec P (fun cs => ∀ c ∈ cs, P c)
    (fun M values children ih => h M values children ih)
    (fun c hc => by simp at hc)
    (fun c cs ihc ihcs d hd => by
      rcases List.mem_cons.1 hd with rfl | hd
      · exact ihc
      · exact ihcs d hd)

/-! ### Binary search on the keys of a node -/

theorem sorted_getElem?_lt {values : List Int} (hs : values.Pairwise (fun a b => a < b))
    {i j : Nat} {a b : Int} (hi : values[i]? = some a) (hj : values[j]? = some b)
    (hij : i < j) : a < b := by
  obtain ⟨hi', rfl⟩ := List.getElem?_eq_some.1 hi
  obtain ⟨hj', rfl⟩ := List.getElem?_eq_some.1 hj
  exact List.pairwise_iff_getElem.1 hs i j hi' hj' hij

theorem Window.init (values : List Int) (value : Int) :
    Window values value 0 ((values.length : Int) - 1) where
  left_nonneg := le_refl _
  right_lt := by omega
  le_succ := by omega
  below := fun j x _ hj => by omega
  above := fun j x hx hj => by
    obtain ⟨h, _⟩ := List.getElem?_eq_some.1 hx
    omega

theorem Window.not_mem {values : List Int} {value left right : Int}
    (w : Window values value left right) (h : right < left) : value ∉ values := by
  intro hmem
  obtain ⟨j, hj⟩ := List.mem_iff_getElem?.1 hmem
  by_cases hjl : (j : Int) < left
  · exact lt_irrefl _ (w.below j value hj hjl)
  · exact lt_irrefl _ (w.above j value hj (by omega))

theorem Window.mid {values : List Int} {value left right : Int}
    (w : Window values value left right) (h : left ≤ right) :
    ∃ x, values[(left + (right - left) / 2).toNat]? = some x := by
  have h1 := w.left_nonneg
  have h2 := w.right_lt
  have : (left + (right - left) / 2).toNat < values.length := by omega
  exact ⟨_, List.getElem?_eq_getElem this⟩

theorem Window.go_right {values : List Int} {value left right x : Int}
    (hs : values.Pairwise (fun a b => a < b))
    (w : Window values value left right) (h : left ≤ right)
    (hx : values[(left + (right - left) / 2).toNat]? = some x) (hlt : x < value) :
    Window values value (left + (right - left) / 2 + 1) right where
  left_nonneg := by have := w.left_nonneg; omega
  right_lt := w.right_lt
  le_succ := by omega
  below := fun j y hy hj => by
    have h1 := w.left_nonneg
    by_cases hjm : j = (left + (right - left) / 2).toNat
    · subst hjm
      rw [hx] at hy
      cases hy
      exact hlt
    · have : y < x := sorted_getElem?_lt hs hy hx (by omega)
      omega
  above := w.above

theorem Window.go_left {values : List Int} {value left right x : Int}
    (hs : values.Pairwise (fun a b => a < b))
    (w : Window values value left right) (h : left ≤ right)
    (hx : values[(left + (right - left) / 2).toNat]? = some x) (hgt : value < x) :
    Window values value left (left + (right - left) / 2 - 1) where
  left_nonneg := w.left_nonneg
  right_lt := by have := w.right_lt; omega
  le_succ := by omega
  below := w.below
  above := fun j y hy hj => by
    have h1 := w.left_nonneg
    by_cases hjm : j = (left + (right - left) / 2).toNat
    · subst hjm
      rw [hx] at hy
      cases hy
      exact hgt
    · have : x < y := sorted_getElem?_lt hs hx hy (by omega)
      omega

/-- With fuel above the width of the window the loop of `binarySearch` returns: the index of
`value`, or `-1` when `value` is not a key. -/
theorem binarySearchLoop_spec {values : List Int} (value : Int)
    (hs : values.Pairwise (fun a b => a < b)) :
    ∀ (fuel : Nat) (left right : Int), Window values value left right →
      right + 1 - left < fuel →
      ∃ r, binarySearchLoop values value fuel left right = some r ∧
        ((0 ≤ r ∧ values[r.toNat]? = some value) ∨ (r = -1 ∧ value ∉ values)) := by
  intro fuel
  induction fuel with
  | zero =>
    intro left right w hf
    have := w.le_succ
    omega
  | succ fuel ih =>
    intro left right w hf
    by_cases h : left ≤ right
    · obtain ⟨x, hx⟩ := w.mid h
      have h1 := w.left_nonneg
      simp only [binarySearchLoop, if_pos h, hx]
      by_cases hxv : x = value
      · subst hxv
        exact ⟨_, by simp, Or.inl ⟨by omega, hx⟩⟩
      · rw [if_neg hxv]
        by_cases hlt : x < value
        · rw [if_pos hlt]
          exact ih _ _ (w.go_right hs h hx hlt) (by omega)
        · rw [if_neg hlt]
          exact ih _ _ (w.go_left hs h hx (by omega)) (by omega)
    · simp only [binarySearchLoop, if_neg h]
      exact ⟨-1, rfl, Or.inr ⟨rfl, w.not_mem (by omega)⟩⟩

/-- With fuel above the width of the window the loop of `binarySearchHelper` returns: the
index of `value`, or the index that splits the keys below `value` from those above. -/
theorem binarySearchHelperLoop_spec {values : List Int} (value : Int)
    (hs : values.Pairwise (fun a b => a < b)) :
    ∀ (fuel : Nat) (left right : Int), Window values value left right →
      right + 1 - left < fuel →
      ∃ r, binarySearchHelperLoop values value fuel left right = some r ∧ 0 ≤ r ∧
        (values[r.toNat]? = some value ∨
          (value ∉ values ∧ r ≤ values.length ∧
            (∀ (j : Nat) (x : Int), values[j]? = some x → (j : Int) < r → x < value) ∧
            (∀ (j : Nat) (x : Int), values[j]? = some x → r ≤ (j : Int) → value < x))) := by
  intro fuel
  induction fuel with
  | zero =>
    intro left right w hf
    have := w.le_succ
    omega
  | succ fuel ih =>
    intro left right w hf
    by_cases h : left ≤ right
    · obtain ⟨x, hx⟩ := w.mid h
      have h1 := w.left_nonneg
      simp only [binarySearchHelperLoop, if_pos h, hx]
      by_cases hxv : x = value
      · subst hxv
        exact ⟨_, by simp, by omega, Or.inl hx⟩
      · rw [if_neg hxv]
        by_cases hlt : x < value
        · rw [if_pos hlt]
          exact ih _ _ (w.go_right hs h hx hlt) (by omega)
        · rw [if_neg hlt]
          exact ih _ _ (w.go_left hs h hx (by omega)) (by omega)
    · simp only [binarySearchHelperLoop, if_neg h]
      have h2 := w.right_lt
      have h3 := w.le_succ
      refine ⟨left, rfl, w.left_nonneg, Or.inr ⟨w.not_mem (by omega), by omega, w.below, ?_⟩⟩
      intro j x hx hj
      exact w.above j x hx (by omega)

theorem binarySearch_spec {values : List Int} (value : Int)
    (hs : values.Pairwise (fun a b => a < b)) :
    (0 ≤ binarySearch values value ∧ values[(binarySearch values value).toNat]? = some value) ∨
      (binarySearch values value = -1 ∧ value ∉ values) := by
  obtain ⟨r, hr, h⟩ := binarySearchLoop_spec value hs (values.length + 1) 0
    ((values.length : Int) - 1) (Window.init values value) (by omega)
  simpa [binarySearch, hr] using h

theorem binarySearch_nonneg_iff {values : List Int} (value : Int)
    (hs : values.Pairwise (fun a b => a < b)) :
    0 ≤ binarySearch values value ↔ value ∈ values := by
  rcases binarySearch_spec value hs with ⟨h0, h⟩ | ⟨h1, h⟩
  · exact ⟨fun _ => List.mem_iff_getElem?.2 ⟨_, h⟩, fun _ => h0⟩
  · constructor
    · intro h0
      omega
    · intro hm
      exact absurd hm h

/-- For a key that is not in the node, `binarySearchHelper` returns the number of keys
below it. -/
theorem binarySearchHelper_spec {values : List Int} {value : Int}
    (hs : values.Pairwise (fun a b => a < b)) (hv : value ∉ values) :
    0 ≤ binarySearchHelper values value ∧ binarySearchHelper values value ≤ values.length ∧
      (∀ (j : Nat) (x : Int), values[j]? = some x →
        (j : Int) < binarySearchHelper values value → x < value) ∧
      (∀ (j : Nat) (x : Int), values[j]? = some x →
        binarySearchHelper values value ≤ (j : Int) → value < x) := by
  obtain ⟨r, hr, h0, h⟩ := binarySearchHelperLoop_spec value hs (values.length + 1) 0
    ((values.length : Int) - 1) (Window.init values value) (by omega)
  have hb : binarySearchHelper values value = r := by simp [binarySearchHelper, hr]
  rw [hb]
  rcases h with h | ⟨_, h1, h2, h3⟩
  · exact absurd (List.mem_iff_getElem?.2 ⟨_, h⟩) hv
  · exact ⟨h0, h1, h2, h3⟩


/-- The loop of `binarySearch` returns from its initial state on any key list. -/
theorem binarySearchLoop_total (values : List Int) (value : Int) :
    ∀ (fuel : Nat) (left right : Int), 0 ≤ left → right < values.length → left ≤ right + 1 →
      right + 1 - left < fuel → ∃ r, binarySearchLoop values value fuel left right = some r := by
  intro fuel
  induction fuel with
  | zero =>
    intro left right h0 h1 h2 hf
    omega
  | succ fuel ih =>
    intro left right h0 h1 h2 hf
    by_cases h : left ≤ right
    · have hm : (left + (right - left) / 2).toNat < values.length := by omega
      simp only [binarySearchLoop, if_pos h, List.getElem?_eq_getElem hm]
      split
      · exact ⟨_, rfl⟩
      · split
        · exact ih _ _ (by omega) h1 (by omega) (by omega)
        · exact ih _ _ h0 (by omega) (by omega) (by omega)
    · exact ⟨-1, by simp [binarySearchLoop, h]⟩

/-- The loop of `binarySearchHelper` returns from its initial state on any key list, with
an index between `0` and the number of keys. -/
theorem binarySearchHelperLoop_total (values : List Int) (value : Int) :
    ∀ (fuel : Nat) (left right : Int), 0 ≤ left → right < values.length → left ≤ right + 1 →
      right + 1 - left < fuel →
      ∃ r, binarySearchHelperLoop values value fuel left right = some r ∧
        0 ≤ r ∧ r ≤ values.length := by
  intro fuel
  induction fuel with
  | zero =>
    intro left right h0 h1 h2 hf
    omega
  | succ fuel ih =>
    intro left right h0 h1 h2 hf
    by_cases h : left ≤ right
    · have hm : (left + (right - left) / 2).toNat < values.length := by omega
      simp only [binarySearchHelperLoop, if_pos h, List.getElem?_eq_getElem hm]
      split
      · exact ⟨_, rfl, by omega, by omega⟩
      · split
        · exact ih _ _ (by omega) h1 (by omega) (by omega)
        · exact ih _ _ h0 (by omega) (by omega) (by omega)
    · exact ⟨left, by simp [binarySearchHelperLoop, h], h0, by omega⟩

theorem binarySearchHelper_range (values : List Int) (value : Int) :
    0 ≤ binarySearchHelper values value ∧ binarySearchHelper values value ≤ values.length := by
  obtain ⟨r, hr, h⟩ := binarySearchHelperLoop_total values value (values.length + 1) 0
    ((values.length : Int) - 1) (le_refl _) (by omega) (by omega) (by omega)
  simpa [binarySearchHelper, hr] using h

/-! ### Unfolding the data-model predicates -/

theorem mem_allKeysList {k : Int} : ∀ {cs : List MTree},
    k ∈ allKeysList cs ↔ ∃ c ∈ cs, k ∈ allKeys c
  | [] => by simp [allKeysList]
  | c :: cs => by simp [allKeysList, @mem_allKeysList k cs]

theorem mem_allKeys_node {k M : Int} {values : List Int} {children : List MTree} :
    k ∈ allKeys (node M values children) ↔ k ∈ values ∨ ∃ c ∈ children, k ∈ allKeys c := by
  simp [allKeys, mem_allKeysList]

theorem wellFormedAll_iff {M : Int} : ∀ {cs : List MTree},
    wellFormedAll M cs = true ↔ ∀ c ∈ cs, wellFormed M c = true
  | [] => by simp [wellFormedAll]
  | c :: cs => by simp [wellFormedAll, @wellFormedAll_iff M cs]

theorem wellFormed_node {M M' : Int} {values : List Int} {children : List MTree} :
    wellFormed M (node M' values children) = true ↔
      M' = M ∧ values.Pairwise (fun a b => a < b) ∧
      (children = [] ∨ children.length = values.length + 1) ∧
      boundsOK values children = true ∧ ∀ c ∈ children, wellFormed M c = true := by
  simp [wellFormed, wellFormedAll_iff, and_assoc, List.isEmpty_iff]

theorem boundsOK_iff : ∀ {values : List Int} {children : List MTree},
    children.length = values.length + 1 →
    (boundsOK values children = true ↔ Between values children)
  | [], children, _ => by simp [boundsOK, Between]
  | v :: vs, [], h => by simp at h
  | v :: vs, [c], h => by simp at h
  | v :: vs, c :: c' :: cs, h => by
    have hlen : (c' :: cs).length = vs.length + 1 := by simpa using h
    have ih := boundsOK_iff hlen
    simp only [boundsOK, Bool.and_eq_true, List.all_eq_true, decide_eq_true_eq, ih]
    constructor
    · rintro ⟨⟨h1, h2⟩, h3, h4⟩
      constructor
      · intro j d x hd hx
        cases j with
        | zero =>
          simp at hd hx
          subst hd hx
          exact h1
        | succ j =>
          simp only [List.getElem?_cons_succ] at hd hx
          exact h3 j d x hd hx
      · intro j d x hd hx
        cases j with
        | zero =>
          simp at hd hx
          subst hd hx
          exact h2
        | succ j =>
          simp only [List.getElem?_cons_succ] at hd hx
          exact h4 j d x (by simpa using hd) hx
    · rintro ⟨h1, h2⟩
      refine ⟨⟨h1 0 c v (by simp) (by simp), h2 0 c' v (by simp) (by simp)⟩, ?_, ?_⟩
      · intro j d x hd hx
        exact h1 (j + 1) d x (by simpa using hd) (by simpa using hx)
      · intro j d x hd hx
        exact h2 (j + 1) d x (by simpa using hd) (by simpa using hx)

/-- In a node whose keys increase, a key of `children[j]` is above `values[i]` for `i < j`
and below it for `j ≤ i`. -/
theorem Between.child {values : List Int} {children : List MTree}
    (hs : values.Pairwise (fun a b => a < b))
    (hlen : children.length = values.length + 1) (hb : Between values children)
    {j : Nat} {c : MTree} (hc : children[j]? = some c) {k : Int} (hk : k ∈ allKeys c)
    {i : Nat} {x : Int} (hx : values[i]? = some x) :
    (i < j → x < k) ∧ (j ≤ i → k < x) := by
  obtain ⟨hi, _⟩ := List.getElem?_eq_some.1 hx
  obtain ⟨hj, _⟩ := List.getElem?_eq_some.1 hc
  constructor
  · intro hij
    obtain ⟨j', rfl⟩ : ∃ j', j = j' + 1 := ⟨j - 1, by omega⟩
    have hj' : j' < values.length := by omega
    have hy : values[j']? = some values[j'] := List.getElem?_eq_getElem hj'
    have h1 := hb.2 j' c _ hc hy k hk
    by_cases hij' : i = j'
    · subst hij'
      rw [hx] at hy
      cases hy
      exact h1
    · have := sorted_getElem?_lt hs hx hy (by omega)
      omega
  · intro hji
    have hj' : j < values.length := by omega
    have hy : values[j]? = some values[j] := List.getElem?_eq_getElem hj'
    have h1 := hb.1 j c _ hc hy k hk
    by_cases hij' : i = j
    · subst hij'
      rw [hx] at hy
      cases hy
      exact h1
    · have := sorted_getElem?_lt hs hy hx (by omega)
      omega


/-! ### The in-order sequence -/

theorem flat_leaf (M : Int) (values : List Int) : flat (node M values []) = values := by
  simp [flat]

theorem flat_internal (M : Int) (values : List Int) {children : List MTree}
    (h : children ≠ []) : flat (node M values children) = weave values children := by
  cases children with
  | nil => exact absurd rfl h
  | cons c cs => simp [flat]

theorem mem_weave {k : Int} : ∀ {values : List Int} {children : List MTree},
    children.length = values.length + 1 →
    (∀ c ∈ children, ∀ k, k ∈ flat c ↔ k ∈ allKeys c) →
    (k ∈ weave values children ↔ k ∈ values ∨ ∃ c ∈ children, k ∈ allKeys c)
  | [], [], h, _ => by simp at h
  | [], [c], _, hc => by simp [weave, hc c (by simp)]
  | [], _ :: _ :: _, h, _ => by simp at h
  | v :: vs, [], h, _ => by simp at h
  | v :: vs, c :: cs, h, hc => by
    have ih := @mem_weave k vs cs (by simpa using h)
      (fun d hd => hc d (List.mem_cons_of_mem _ hd))
    simp only [weave, List.mem_append, List.mem_cons, ih, hc c (List.mem_cons_self _ _),
      exists_eq_or_imp]
    tauto

theorem pairwise_weave : ∀ {values : List Int} {children : List MTree},
    children.length = values.length + 1 →
    values.Pairwise (fun a b => a < b) → Between values children →
    (∀ c ∈ children, (flat c).Pairwise (fun a b => a < b) ∧ ∀ k, k ∈ flat c ↔ k ∈ allKeys c) →
    (weave values children).Pairwise (fun a b => a < b)
  | [], [], h, _, _, _ => by simp at h
  | [], [c], _, _, _, hc => by simpa [weave] using (hc c (by simp)).1
  | [], _ :: _ :: _, h, _, _, _ => by simp at h
  | v :: vs, [], h, _, _, _ => by simp at h
  | v :: vs, c :: cs, h, hs, hb, hc => by
    have hlen : cs.length = vs.length + 1 := by simpa using h
    have hb' : Between vs cs :=
      ⟨fun j d x hd hx => hb.1 (j + 1) d x (by simpa using hd) (by simpa using hx),
       fun j d x hd hx => hb.2 (j + 1) d x (by simpa using hd) (by simpa using hx)⟩
    have hc' : ∀ d ∈ cs, (flat d).Pairwise (fun a b => a < b) ∧ ∀ k, k ∈ flat d ↔ k ∈ allKeys d :=
      fun d hd => hc d (List.mem_cons_of_mem _ hd)
    have ih := pairwise_weave hlen (List.Pairwise.of_cons hs) hb' hc'
    have hmem := fun k => mem_weave (k := k) hlen (fun d hd => (hc' d hd).2)
    have hlow : ∀ a ∈ flat c, a < v := fun a ha =>
      hb.1 0 c v (by simp) (by simp) a (((hc c (List.mem_cons_self _ _)).2 a).1 ha)
    have hhigh : ∀ b ∈ weave vs cs, v < b := by
      intro b hb0
      rcases (hmem b).1 hb0 with hbv | ⟨d, hd, hbd⟩
      · exact List.rel_of_pairwise_cons hs hbv
      · obtain ⟨j, hj⟩ := List.mem_iff_getElem?.1 hd
        exact (Between.child hs h hb (j := j + 1) (by simpa using hj) hbd
          (i := 0) (x := v) (by simp)).1 (by omega)
    simp only [weave]
    rw [List.pairwise_append]
    refine ⟨(hc c (List.mem_cons_self _ _)).1, List.pairwise_cons.2 ⟨hhigh, ih⟩, ?_⟩
    intro a ha b hb0
    rcases List.mem_cons.1 hb0 with rfl | hb1
    · exact hlow a ha
    · exact lt_trans (hlow a ha) (hhigh b hb1)

/-- On a well-formed tree the in-order sequence is strictly increasing and holds exactly
the keys stored in the tree. -/
theorem flat_spec (M : Int) : ∀ t, wellFormed M t = true →
    (flat t).Pairwise (fun a b => a < b) ∧ ∀ k, k ∈ flat t ↔ k ∈ allKeys t := by
  intro t
  induction t using induct with
  | h M' values children ih =>
    intro hwf
    obtain ⟨_, hs, hshape, hb, hch⟩ := wellFormed_node.1 hwf
    rcases hshape with rfl | hlen
    · simp [flat_leaf, allKeys, allKeysList, hs]
    · have hne : children ≠ [] := by
        intro h
        simp [h] at hlen
      have hc := fun c hc => ih c hc (hch c hc)
      rw [flat_internal M' values hne]
      refine ⟨pairwise_weave hlen hs ((boundsOK_iff hlen).1 hb) hc, fun k => ?_⟩
      rw [mem_weave hlen (fun c h => (hc c h).2), mem_allKeys_node]

theorem flat_sorted {M : Int} {t : MTree} (h : wellFormed M t = true) :
    (flat t).Sorted (fun a b => a < b) := (flat_spec M t h).1

theorem mem_flat_iff {M : Int} {t : MTree} (h : wellFormed M t = true) (k : Int) :
    k ∈ flat t ↔ k ∈ allKeys t := (flat_spec M t h).2 k

/-! ### `collect_values` computes the in-order sequence -/

theorem inOrderLoop_eq : ∀ {values : List Int} {children : List MTree},
    children.length = values.length + 1 →
    (∀ c ∈ children, ∀ r, inOrderTraversal c r = .ok (r ++ flat c)) →
    ∀ r, inOrderLoop values children r = .ok (r ++ weave values children)
  | [], [], h, _ => by simp at h
  | [], [c], _, hc => by
    intro r
    simp [inOrderLoop, weave, hc c (by simp)]
  | [], _ :: _ :: _, h, _ => by simp at h
  | v :: vs, [], h, _ => by simp at h
  | v :: vs, c :: cs, h, hc => by
    intro r
    have ih := @inOrderLoop_eq vs cs (by simpa using h)
      (fun d hd => hc d (List.mem_cons_of_mem _ hd))
    simp [inOrderLoop, weave, hc c (List.mem_cons_self _ _), ih]

theorem inOrderTraversal_node {M : Int} {values : List Int} {children : List MTree}
    (hshape : children = [] ∨ children.length = values.length + 1)
    (hc : ∀ c ∈ children, ∀ r, inOrderTraversal c r = .ok (r ++ flat c)) (r : List Int) :
    inOrderTraversal (node M values children) r = .ok (r ++ flat (node M values children)) := by
  cases children with
  | nil => simp [inOrderTraversal, flat]
  | cons c cs =>
    rcases hshape with h | h
    · simp at h
    · simp only [inOrderTraversal, flat]
      exact inOrderLoop_eq h hc r

theorem inOrderTraversal_eq (M : Int) : ∀ t, wellFormed M t = true →
    ∀ r, inOrderTraversal t r = .ok (r ++ flat t) := by
  intro t
  induction t using induct with
  | h M' values children ih =>
    intro hwf r
    obtain ⟨_, _, hshape, _, hch⟩ := wellFormed_node.1 hwf
    exact inOrderTraversal_node hshape (fun c hc => ih c hc (hch c hc)) r

theorem collect_values_eq_flat {M : Int} {t : MTree} (h : wellFormed M t = true) :
    collect_values t = .ok (flat t) := by
  simpa [collect_values] using inOrderTraversal_eq M t h []

/-! ### `search` -/

theorem searchAt_eq {value : Int} : ∀ {cs : List MTree} {i : Nat} {c : MTree},
    cs[i]? = some c → searchAt cs i value = search c value
  | [], _, _, h => by simp at h
  | d :: cs, 0, c, h => by
    simp at h
    simp [searchAt, h]
  | d :: cs, i + 1, c, h => by
    simp only [List.getElem?_cons_succ] at h
    simp [searchAt, searchAt_eq h]

/-- In a well-formed internal node a key that is not among the node's keys can only be in
the child that `binarySearchHelper` selects. -/
theorem child_of_key {values : List Int} {children : List MTree} {value : Int}
    (hs : values.Pairwise (fun a b => a < b)) (hlen : children.length = values.length + 1)
    (hb : Between values children) (hv : value ∉ values) :
    ∃ c, children[(binarySearchHelper values value).toNat]? = some c ∧
      ((∃ d ∈ children, value ∈ allKeys d) ↔ value ∈ allKeys c) := by
  obtain ⟨h0, h1, hlo, hhi⟩ := binarySearchHelper_spec hs hv
  have hi : (binarySearchHelper values value).toNat < children.length := by omega
  refine ⟨children[(binarySearchHelper values value).toNat], List.getElem?_eq_getElem hi, ?_⟩
  constructor
  · rintro ⟨d, hd, hvd⟩
    obtain ⟨j, hj⟩ := List.mem_iff_getElem?.1 hd
    obtain ⟨hjl, hjd⟩ := List.getElem?_eq_some.1 hj
    rcases lt_trichotomy j (binarySearchHelper values value).toNat with hlt | heq | hgt
    · exfalso
      have hjv : j < values.length := by omega
      have h2 := (Between.child hs hlen hb hj hvd (List.getElem?_eq_getElem hjv)).2 le_rfl
      have h3 := hlo j _ (List.getElem?_eq_getElem hjv) (by omega)
      omega
    · subst heq
      simpa [hjd] using hvd
    · exfalso
      have hjv : (binarySearchHelper values value).toNat < values.length := by omega
      have h2 := (Between.child hs hlen hb hj hvd (List.getElem?_eq_getElem hjv)).1 hgt
      have h3 := hhi _ _ (List.getElem?_eq_getElem hjv) (by omega)
      omega
  · intro h
    exact ⟨_, List.getElem_mem _, h⟩

theorem search_iff (M : Int) : ∀ t, wellFormed M t = true →
    ∀ value, search t value = true ↔ value ∈ flat t := by
  intro t
  induction t using induct with
  | h M' values children ih =>
    intro hwf value
    obtain ⟨_, hs, hshape, hb, hch⟩ := wellFormed_node.1 hwf
    rw [mem_flat_iff hwf, mem_allKeys_node]
    by_cases hv : value ∈ values
    · have := (binarySearch_nonneg_iff value hs).2 hv
      simp [search, this, hv]
    · have hneg : ¬ 0 ≤ binarySearch values value := fun h =>
        hv ((binarySearch_nonneg_iff value hs).1 h)
      rcases hshape with rfl | hlen
      · simp [search, hneg, hv]
      · have hne : children.isEmpty = false := by
          cases children with
          | nil => simp at hlen
          | cons c cs => rfl
        obtain ⟨c, hc, hiff⟩ := child_of_key hs hlen ((boundsOK_iff hlen).1 hb) hv
        obtain ⟨h0, h1, _, _⟩ := binarySearchHelper_spec hs hv
        have hcm : c ∈ children := List.mem_iff_getElem?.2 ⟨_, hc⟩
        have hrange : ¬ (binarySearchHelper values value < 0 ∨
            binarySearchHelper values value ≥ (children.length : Int)) := by omega
        simp only [search, ge_iff_le, if_neg hneg, hne, Bool.false_eq_true, if_false,
          if_neg hrange, searchAt_eq hc]
        rw [ih c hcm (hch c hcm), mem_flat_iff (hch c hcm), hiff]
        simp [hv]


/-! ### `split_node` -/

theorem boundsOK_nil (values : List Int) : boundsOK values [] = true := by
  cases values <;> simp [boundsOK]

theorem weave_split : ∀ (mid : Nat) {values : List Int} {children : List MTree} {x : Int},
    children.length = values.length + 1 → values[mid]? = some x →
    weave values children =
      weave (values.take mid) (children.take (mid + 1)) ++
        x :: weave (values.drop (mid + 1)) (children.drop (mid + 1))
  | _, [], _, _, _, hx => by simp at hx
  | _, _ :: _, [], _, h, _ => by simp at h
  | 0, v :: vs, c :: cs, x, _, hx => by
    simp at hx
    simp [weave, hx]
  | mid + 1, v :: vs, c :: cs, x, h, hx => by
    have ih := @weave_split mid vs cs x (by simpa using h)
      (by simpa using hx)
    simp [weave, ih]

theorem flat_pair (M x : Int) (l r : MTree) :
    flat (node M [x] [l, r]) = flat l ++ x :: flat r := by
  simp [flat, weave]

theorem flat_split {M : Int} {values : List Int} {children : List MTree} {mid : Nat} {x : Int}
    (hshape : children = [] ∨ children.length = values.length + 1)
    (hx : values[mid]? = some x) :
    flat (node M values children) =
      flat (node M (values.take mid) (children.take (mid + 1))) ++
        x :: flat (node M (values.drop (mid + 1)) (children.drop (mid + 1))) := by
  obtain ⟨hmid, hxe⟩ := List.getElem?_eq_some.1 hx
  rcases hshape with rfl | hlen
  · simp only [List.take_nil, List.drop_nil, flat_leaf]
    rw [← hxe, ← List.drop_eq_getElem_cons hmid, List.take_append_drop]
  · have h1 : children ≠ [] := by
      intro h
      simp [h] at hlen
    have h2 : children.take (mid + 1) ≠ [] := by
      intro h
      have := congrArg List.length h
      simp only [List.length_take, List.length_nil] at this
      omega
    have h3 : children.drop (mid + 1) ≠ [] := by
      intro h
      have := congrArg List.length h
      simp only [List.length_drop, List.length_nil] at this
      omega
    rw [flat_internal M _ h1, flat_internal M _ h2, flat_internal M _ h3]
    exact weave_split mid hlen hx

theorem wellFormed_take {M : Int} {values : List Int} {children : List MTree} (mid : Nat)
    (hmid : mid < values.length)
    (hwf : wellFormed M (node M values children) = true) :
    wellFormed M (node M (values.take mid) (children.take (mid + 1))) = true := by
  obtain ⟨_, hs, hshape, hb, hch⟩ := wellFormed_node.1 hwf
  refine wellFormed_node.2 ⟨rfl, hs.sublist (List.take_sublist _ _), ?_, ?_,
    fun c hc => hch c (List.mem_of_mem_take hc)⟩
  · rcases hshape with rfl | hlen
    · exact Or.inl (by simp)
    · refine Or.inr ?_
      simp only [List.length_take]
      omega
  · rcases hshape with rfl | hlen
    · simp [boundsOK_nil]
    · have hB := (boundsOK_iff hlen).1 hb
      have hl : (children.take (mid + 1)).length = (values.take mid).length + 1 := by
        simp only [List.length_take]
        omega
      refine (boundsOK_iff hl).2 ⟨?_, ?_⟩
      · intro j c x hc hx
        rw [List.getElem?_take] at hc hx
        split at hx
        · split at hc
          · exact hB.1 j c x hc hx
          · cases hc
        · cases hx
      · intro j c x hc hx
        rw [List.getElem?_take] at hc hx
        split at hx
        · split at hc
          · exact hB.2 j c x hc hx
          · cases hc
        · cases hx

theorem wellFormed_drop {M : Int} {values : List Int} {children : List MTree} (mid : Nat)
    (hmid : mid < values.length)
    (hwf : wellFormed M (node M values children) = true) :
    wellFormed M (node M (values.drop (mid + 1)) (children.drop (mid + 1))) = true := by
  obtain ⟨_, hs, hshape, hb, hch⟩ := wellFormed_node.1 hwf
  refine wellFormed_node.2 ⟨rfl, hs.sublist (List.drop_sublist _ _), ?_, ?_,
    fun c hc => hch c (List.mem_of_mem_drop hc)⟩
  · rcases hshape with rfl | hlen
    · exact Or.inl (by simp)
    · refine Or.inr ?_
      simp only [List.length_drop]
      omega
  · rcases hshape with rfl | hlen
    · simp [boundsOK_nil]
    · have hB := (boundsOK_iff hlen).1 hb
      have hl : (children.drop (mid + 1)).length = (values.drop (mid + 1)).length + 1 := by
        simp only [List.length_drop]
        omega
      refine (boundsOK_iff hl).2 ⟨?_, ?_⟩
      · intro j c x hc hx
        rw [List.getElem?_drop] at hc hx
        exact hB.1 _ c x hc hx
      · intro j c x hc hx
        rw [List.getElem?_drop] at hc hx
        exact hB.2 _ c x (by rw [← hc]; congr 1) hx

/-- Splitting a well-formed node that has a key returns a well-formed tree with the same
in-order sequence. -/
theorem split_node_spec {M : Int} {values : List Int} {children : List MTree}
    (hwf : wellFormed M (node M values children) = true) (hne : values ≠ []) :
    ∃ t', split_node (node M values children) = ⟨t', none⟩ ∧ wellFormed M t' = true ∧
      flat t' = flat (node M values children) := by
  obtain ⟨_, hs, hshape, hb, hch⟩ := wellFormed_node.1 hwf
  have hpos : 0 < values.length := List.length_pos.2 hne
  have hmid : values.length / 2 < values.length := by omega
  have hx : values[values.length / 2]? = some values[values.length / 2] :=
    List.getElem?_eq_getElem hmid
  have hL := wellFormed_take (values.length / 2) hmid hwf
  have hR := wellFormed_drop (values.length / 2) hmid hwf
  have hflat := flat_split (M := M) hshape hx
  have hsorted := flat_sorted hwf
  rw [hflat] at hsorted
  have hsp := List.pairwise_append.1 hsorted
  have hroot : wellFormed M (node M [values[values.length / 2]]
      [node M (values.take (values.length / 2)) (children.take (values.length / 2 + 1)),
       node M (values.drop (values.length / 2 + 1)) (children.drop (values.length / 2 + 1))])
      = true := by
    refine wellFormed_node.2 ⟨rfl, by simp, Or.inr (by simp), ?_, ?_⟩
    · simp only [boundsOK, Bool.and_true, Bool.and_eq_true, List.all_eq_true,
        decide_eq_true_eq]
      constructor
      · intro k hk
        exact hsp.2.2 k ((mem_flat_iff hL k).2 hk) _ (List.mem_cons_self _ _)
      · intro k hk
        exact List.rel_of_pairwise_cons hsp.2.1 ((mem_flat_iff hR k).2 hk)
    · intro c hc
      simp only [List.mem_cons, List.mem_singleton, List.not_mem_nil, or_false] at hc
      rcases hc with rfl | rfl
      · exact hL
      · exact hR
  have hflat' : flat (node M [values[values.length / 2]]
      [node M (values.take (values.length / 2)) (children.take (values.length / 2 + 1)),
       node M (values.drop (values.length / 2 + 1)) (children.drop (values.length / 2 + 1))])
      = flat (node M values children) := by
    rw [hflat, flat_pair]
  refine ⟨_, ?_, hroot, hflat'⟩
  rcases hshape with rfl | hlen
  · simp [split_node, hx]
  · have hne' : children.isEmpty = false := by
      cases children with
      | nil => simp at hlen
      | cons c cs => rfl
    have hle : values.length / 2 + 1 ≤ children.length := by omega
    simp [split_node, hx, hne', hle]

theorem splitIfFull_spec {M : Int} (hM : 1 ≤ M) {values : List Int} {children : List MTree}
    (hwf : wellFormed M (node M values children) = true) :
    ∃ t', splitIfFull (node M values children) = ⟨t', none⟩ ∧ wellFormed M t' = true ∧
      flat t' = flat (node M values children) := by
  by_cases hcap : reachedCapacity M values = true
  · have hne : values ≠ [] := by
      intro h
      subst h
      simp [reachedCapacity] at hcap
      omega
    simpa [splitIfFull, hcap] using split_node_spec hwf hne
  · exact ⟨_, by simp [splitIfFull, hcap], hwf, rfl⟩


/-! ### `insertValue` -/

theorem insertValueAt_eq {value : Int} : ∀ {cs : List MTree} {i : Nat} {c : MTree},
    cs[i]? = some c →
    insertValueAt cs i value = (cs.set i (insertValue c value).tree, (insertValue c value).raised)
  | [], _, _, h => by simp at h
  | d :: cs, 0, c, h => by
    simp at h
    simp [insertValueAt, h]
  | d :: cs, i + 1, c, h => by
    simp only [List.getElem?_cons_succ] at h
    simp [insertValueAt, insertValueAt_eq h]

/-- The in-order sequence of an internal node around the sequence of `children[i]`. -/
theorem weave_zip : ∀ (i : Nat) {values : List Int} {children : List MTree} {c : MTree},
    children.length = values.length + 1 → children[i]? = some c →
    ∃ A B, weave values children = A ++ flat c ++ B ∧
      ∀ c', weave values (children.set i c') = A ++ flat c' ++ B
  | _, _, [], _, _, hc => by simp at hc
  | 0, [], [d], c, _, hc => by
    simp at hc
    subst hc
    exact ⟨[], [], by simp [weave], fun c' => by simp [weave]⟩
  | _, [], _ :: _ :: _, _, h, _ => by simp at h
  | i + 1, [], [d], c, _, hc => by simp at hc
  | 0, v :: vs, d :: cs, c, _, hc => by
    simp at hc
    subst hc
    exact ⟨[], v :: weave vs cs, by simp [weave], fun c' => by simp [weave]⟩
  | i + 1, v :: vs, d :: cs, c, h, hc => by
    obtain ⟨A, B, h1, h2⟩ := @weave_zip i vs cs c
      (by simpa using h) (by simpa using hc)
    exact ⟨flat d ++ v :: A, B, by simp [weave, h1], fun c' => by simp [weave, h2 c']⟩

theorem pairwise_insertAt {values : List Int} {value : Int} {i : Nat}
    (hs : values.Pairwise (fun a b => a < b))
    (hlo : ∀ (j : Nat) (x : Int), values[j]? = some x → j < i → x < value)
    (hhi : ∀ (j : Nat) (x : Int), values[j]? = some x → i ≤ j → value < x) :
    (insertAt values i value).Pairwise (fun a b => a < b) := by
  have hA : ∀ a ∈ values.take i, a < value := by
    intro a ha
    obtain ⟨j, hj⟩ := List.mem_iff_getElem?.1 ha
    rw [List.getElem?_take] at hj
    split at hj
    · exact hlo j a hj (by assumption)
    · cases hj
  have hB : ∀ b ∈ values.drop i, value < b := by
    intro b hb
    obtain ⟨j, hj⟩ := List.mem_iff_getElem?.1 hb
    rw [List.getElem?_drop] at hj
    exact hhi _ b hj (by omega)
  unfold insertAt
  rw [List.pairwise_append]
  refine ⟨hs.sublist (List.take_sublist _ _),
    List.pairwise_cons.2 ⟨hB, hs.sublist (List.drop_sublist _ _)⟩, ?_⟩
  intro a ha b hb
  rcases List.mem_cons.1 hb with rfl | hb'
  · exact hA a ha
  · exact lt_trans (hA a ha) (hB b hb')

theorem insertAt_perm (values : List Int) (i : Nat) (value : Int) :
    (insertAt values i value).Perm (value :: values) := by
  unfold insertAt
  exact List.perm_middle.trans (List.Perm.cons _ (by rw [List.take_append_drop]))

/-- Replacing `children[i]` by a well-formed tree whose keys are keys of the old child or lie
between `values[i-1]` and `values[i]` keeps the node well-formed. -/
theorem wellFormed_set {M : Int} {values : List Int} {children : List MTree} {i : Nat}
    {c c' : MTree} (hwf : wellFormed M (node M values children) = true)
    (hc : children[i]? = some c) (hc' : wellFormed M c' = true)
    (hk : ∀ k ∈ allKeys c', k ∈ allKeys c ∨
      ((∀ x, values[i]? = some x → k < x) ∧
       (∀ (j : Nat) (x : Int), j + 1 = i → values[j]? = some x → x < k))) :
    wellFormed M (node M values (children.set i c')) = true := by
  obtain ⟨_, hs, hshape, hb, hch⟩ := wellFormed_node.1 hwf
  have hne : children ≠ [] := by
    intro h
    simp [h] at hc
  have hlen : children.length = values.length + 1 := hshape.resolve_left hne
  have hB := (boundsOK_iff hlen).1 hb
  have hlen' : (children.set i c').length = values.length + 1 := by simpa using hlen
  refine wellFormed_node.2 ⟨rfl, hs, Or.inr hlen', (boundsOK_iff hlen').2 ⟨?_, ?_⟩, ?_⟩
  · intro j d x hd hx k hkd
    rw [List.getElem?_set] at hd
    split at hd
    · split at hd
      · cases hd
        subst i
        rcases hk k hkd with h | h
        · exact hB.1 j c x hc hx k h
        · exact h.1 x hx
      · cases hd
    · exact hB.1 j d x hd hx k hkd
  · intro j d x hd hx k hkd
    rw [List.getElem?_set] at hd
    split at hd
    · split at hd
      · cases hd
        subst i
        rcases hk k hkd with h | h
        · exact hB.2 j c x hc hx k h
        · exact h.2 j x rfl hx
      · cases hd
    · exact hB.2 j d x hd hx k hkd
  · intro d hd
    rcases List.mem_or_eq_of_mem_set hd with h | rfl
    · exact hch d h
    · exact hc'

/-- Inserting a key that is not in a well-formed tree returns normally, keeps the tree
well-formed and adds the key to the in-order sequence. -/
theorem insertValue_spec {M : Int} (hM : 1 ≤ M) : ∀ t, wellFormed M t = true →
    ∀ value, value ∉ flat t →
    ∃ t', insertValue t value = ⟨t', none⟩ ∧ wellFormed M t' = true ∧
      (flat t').Perm (value :: flat t) := by
  intro t
  induction t using induct with
  | h M' values children ih =>
    intro hwf value hnot
    obtain ⟨hMM, hs, hshape, hb, hch⟩ := wellFormed_node.1 hwf
    subst hMM
    have hsearch : search (node M' values children) value = false := by
      rw [← Bool.not_eq_true, search_iff M' _ hwf]
      exact hnot
    have hv : value ∉ values := fun h =>
      hnot ((mem_flat_iff hwf value).2 (mem_allKeys_node.2 (Or.inl h)))
    obtain ⟨h0, h1, hlo, hhi⟩ := binarySearchHelper_spec hs hv
    rcases hshape with rfl | hlen
    · have hwf1 : wellFormed M' (node M' (insertAt values
          (binarySearchHelper values value).toNat value) []) = true :=
        wellFormed_node.2 ⟨rfl,
          pairwise_insertAt hs (fun j x hx hj => hlo j x hx (by omega))
            (fun j x hx hj => hhi j x hx (by omega)),
          Or.inl rfl, boundsOK_nil _, by simp⟩
      obtain ⟨t', ht', hwf', hflat'⟩ := splitIfFull_spec hM hwf1
      refine ⟨t', ?_, hwf', ?_⟩
      · simp only [insertValue, hsearch, Bool.false_eq_true, if_false, List.isEmpty_nil,
          if_true]
        exact ht'
      · rw [hflat', flat_leaf, flat_leaf]
        exact insertAt_perm _ _ _
    · have hne : children.isEmpty = false := by
        cases children with
        | nil => simp at hlen
        | cons c cs => rfl
      have hne' : children ≠ [] := by
        intro h
        simp [h] at hne
      obtain ⟨c, hc, hiff⟩ := child_of_key hs hlen ((boundsOK_iff hlen).1 hb) hv
      have hcm : c ∈ children := List.mem_iff_getElem?.2 ⟨_, hc⟩
      have hnc : value ∉ flat c := by
        intro h
        apply hnot
        rw [mem_flat_iff hwf, mem_allKeys_node]
        exact Or.inr ⟨c, hcm, (mem_flat_iff (hch c hcm) value).1 h⟩
      obtain ⟨c', hins, hwfc', hperm⟩ := ih c hcm (hch c hcm) value hnc
      have hwf1 : wellFormed M' (node M' values
          (children.set (binarySearchHelper values value).toNat c')) = true := by
        refine wellFormed_set hwf hc hwfc' ?_
        intro k hk
        have hk' := hperm.mem_iff.1 ((mem_flat_iff hwfc' k).2 hk)
        rcases List.mem_cons.1 hk' with rfl | hk''
        · right
          exact ⟨fun x hx => hhi _ x hx (by omega), fun j x hj hx => hlo j x hx (by omega)⟩
        · left
          exact (mem_flat_iff (hch c hcm) k).1 hk''
      obtain ⟨t', ht', hwf', hflat'⟩ := splitIfFull_spec hM hwf1
      refine ⟨t', ?_, hwf', ?_⟩
      · simp only [insertValue, hsearch, Bool.false_eq_true, if_false, hne,
          insertValueAt_eq hc, hins]
        exact ht'
      · obtain ⟨A, B, hz, hz'⟩ := weave_zip _ hlen hc
        have hne2 : children.set (binarySearchHelper values value).toNat c' ≠ [] := by
          intro h
          have := congrArg List.length h
          simp at this
          exact hne' this
        rw [hflat', flat_internal _ _ hne2, flat_internal _ _ hne', hz' c', hz]
        have h1 : (A ++ flat c' ++ B).Perm (A ++ (value :: flat c) ++ B) :=
          (List.Perm.append_left A hperm).append_right B
        refine h1.trans ?_
        simp only [List.append_assoc, List.cons_append]
        exact List.perm_middle


theorem insertValue_of_search {t : MTree} {value : Int} (h : search t value = true) :
    insertValue t value = ⟨t, some .duplicateInsertion⟩ := by
  cases t with
  | node M values children => simp [insertValue, h]

/-! ### `buildTree` -/

theorem insertAll_spec {M : Int} (hM : 1 ≤ M) : ∀ (xs : List Int) (t : MTree),
    wellFormed M t = true → (xs ++ flat t).Nodup →
    ∃ t', insertAll t xs = ⟨t', none⟩ ∧ wellFormed M t' = true ∧
      (flat t').Perm (xs ++ flat t)
  | [], t, hwf, _ => ⟨t, by simp [insertAll], hwf, by simp⟩
  | x :: xs, t, hwf, hnd => by
    have hx : x ∉ flat t := by
      intro h
      have := (List.nodup_cons.1 hnd).1
      exact this (List.mem_append_right _ h)
    obtain ⟨t1, h1, hwf1, hp1⟩ := insertValue_spec hM t hwf x hx
    have hperm : (xs ++ flat t1).Perm (x :: xs ++ flat t) :=
      (List.Perm.append_left xs hp1).trans List.perm_middle
    obtain ⟨t', h2, hwf2, hp2⟩ := insertAll_spec hM xs t1 hwf1 (hperm.nodup_iff.2 hnd)
    exact ⟨t', by simp [insertAll, h1, h2], hwf2, hp2.trans hperm⟩

theorem wellFormed_fresh (M : Int) : wellFormed M (node M [] []) = true := by
  simp [wellFormed, wellFormedAll, boundsOK]

/-- Building from distinct keys returns normally with a well-formed tree that holds
exactly the input keys, whatever the receiver held. -/
theorem buildTree_spec {M : Int} (hM : 1 ≤ M) (values : List Int) (children : List MTree)
    {xs : List Int} (hxs : xs.Nodup) :
    ∃ t', buildTree (node M values children) xs = ⟨t', none⟩ ∧ wellFormed M t' = true ∧
      (flat t').Perm xs := by
  obtain ⟨t', h1, h2, h3⟩ := insertAll_spec hM xs (node M [] []) (wellFormed_fresh M)
    (by simpa [flat] using hxs)
  exact ⟨t', by simpa [buildTree] using h1, h2, by simpa [flat] using h3⟩

theorem sorted_le_of_lt {l : List Int} (h : l.Pairwise (fun a b => a < b)) :
    l.Sorted (fun a b => a ≤ b) :=
  List.Pairwise.imp (fun hab => le_of_lt hab) h

theorem eq_of_perm_of_increasing {l₁ l₂ : List Int} (hp : l₁.Perm l₂)
    (h₁ : l₁.Pairwise (fun a b => a < b)) (h₂ : l₂.Pairwise (fun a b => a < b)) : l₁ = l₂ :=
  List.eq_of_perm_of_sorted hp (sorted_le_of_lt h₁) (sorted_le_of_lt h₂)

theorem nodup_of_increasing {l : List Int} (h : l.Pairwise (fun a b => a < b)) : l.Nodup :=
  List.Pairwise.imp (fun hab => ne_of_lt hab) h


/-! ### `findMin`, `findMax` -/

theorem findMin_error : ∀ t e, findMin t = .error e → e = .runtimeError := by
  intro t
  induction t using induct with
  | h M values children ih =>
    intro e he
    cases children with
    | nil =>
      cases values with
      | nil =>
        simp only [findMin] at he
        cases he
        rfl
      | cons v vs => simp [findMin] at he
    | cons c cs =>
      simp only [findMin] at he
      exact ih c (List.mem_cons_self _ _) e he

theorem findMin_mem : ∀ t m, findMin t = .ok m → m ∈ allKeys t := by
  intro t
  induction t using induct with
  | h M values children ih =>
    intro m hm
    cases children with
    | nil =>
      cases values with
      | nil => simp [findMin] at hm
      | cons v vs =>
        simp only [findMin] at hm
        cases hm
        simp [allKeys]
    | cons c cs =>
      simp only [findMin] at hm
      exact mem_allKeys_node.2 (Or.inr ⟨c, List.mem_cons_self _ _,
        ih c (List.mem_cons_self _ _) m hm⟩)

theorem findMaxBack_eq : ∀ {cs : List MTree} {i : Nat} {c : MTree},
    i + 1 = cs.length → cs[i]? = some c → findMaxBack cs = findMax c
  | [], _, _, h, _ => by simp at h
  | [d], 0, c, _, hc => by
    simp at hc
    simp [findMaxBack, hc]
  | [d], i + 1, c, h, _ => by simp at h
  | d :: d' :: cs, 0, c, h, _ => by simp at h
  | d :: d' :: cs, i + 1, c, h, hc => by
    have ih := @findMaxBack_eq (d' :: cs) i c (by simpa using h)
      (by simpa using hc)
    simpa [findMaxBack] using ih

theorem findMax_internal {M : Int} {values : List Int} {children : List MTree} {c : MTree}
    {i : Nat} (hi : i + 1 = children.length) (hc : children[i]? = some c) :
    findMax (node M values children) = findMax c := by
  cases children with
  | nil => simp at hi
  | cons d ds =>
    simp only [findMax]
    exact findMaxBack_eq hi hc

theorem last_child {children : List MTree} (h : children ≠ []) :
    ∃ c, children[children.length - 1]? = some c ∧ c ∈ children := by
  have hpos : 0 < children.length := List.length_pos.2 h
  have hlt : children.length - 1 < children.length := by omega
  exact ⟨children[children.length - 1], List.getElem?_eq_getElem hlt, List.getElem_mem _⟩

theorem findMax_error : ∀ t e, findMax t = .error e → e = .runtimeError := by
  intro t
  induction t using induct with
  | h M values children ih =>
    intro e he
    by_cases hne : children = []
    · subst hne
      simp only [findMax] at he
      split at he
      · cases he
        rfl
      · cases he
    · obtain ⟨c, hc, hcm⟩ := last_child hne
      have hpos : 0 < children.length := List.length_pos.2 hne
      rw [findMax_internal (by omega) hc] at he
      exact ih c hcm e he

theorem findMax_mem : ∀ t m, findMax t = .ok m → m ∈ allKeys t := by
  intro t
  induction t using induct with
  | h M values children ih =>
    intro m hm
    by_cases hne : children = []
    · subst hne
      simp only [findMax] at hm
      split at hm
      · cases hm
      · rename_i v hv
        cases hm
        simp only [allKeys, allKeysList, List.append_nil]
        exact List.mem_of_getLast?_eq_some hv
    · obtain ⟨c, hc, hcm⟩ := last_child hne
      have hpos : 0 < children.length := List.length_pos.2 hne
      rw [findMax_internal (by omega) hc] at hm
      exact mem_allKeys_node.2 (Or.inr ⟨c, hcm, ih c hcm m hm⟩)

/-! ### `remove`: unfolding -/

theorem removeAt_eq {value : Int} : ∀ {cs : List MTree} {i : Nat} {c : MTree},
    cs[i]? = some c →
    removeAt cs i value = (cs.set i (remove c value).tree, (remove c value).raised)
  | [], _, _, h => by simp at h
  | d :: cs, 0, c, h => by
    simp at h
    simp [removeAt, h]
  | d :: cs, i + 1, c, h => by
    simp only [List.getElem?_cons_succ] at h
    simp [removeAt, removeAt_eq h]

theorem set_self : ∀ {cs : List MTree} {i : Nat} {c : MTree},
    cs[i]? = some c → cs.set i c = cs
  | [], _, _, h => by simp at h
  | d :: cs, 0, c, h => by
    simp at h
    simp [h]
  | d :: cs, i + 1, c, h => by
    simp only [List.getElem?_cons_succ] at h
    simp [set_self h]

theorem remove_of_not_search {t : MTree} {value : Int} (h : search t value = false) :
    remove t value = ⟨t, some .notFound⟩ := by
  cases t with
  | node M values children => simp [remove, h]

theorem remove_leaf {M : Int} {values : List Int} {value : Int}
    (h : search (node M values []) value = true) :
    (remove (node M values []) value).raised = none := by
  simp only [remove, h, Bool.not_true, Bool.false_eq_true, if_false, List.isEmpty_nil, if_true]
  split <;> rfl

theorem remove_leaf_found {M : Int} {values : List Int} {value : Int}
    (h : search (node M values []) value = true)
    (h0 : 0 ≤ binarySearch values value)
    (hi : values[(binarySearch values value).toNat]? = some value) :
    remove (node M values []) value =
      ⟨node M (values.eraseIdx (binarySearch values value).toNat) [], none⟩ := by
  simp [remove, h, h0, hi]

theorem remove_descend {M : Int} {values : List Int} {children : List MTree} {value : Int}
    {c : MTree} (h : search (node M values children) value = true)
    (hne : children.isEmpty = false) (hneg : ¬ 0 ≤ binarySearch values value)
    (hc : children[(binarySearchHelper values value).toNat]? = some c) :
    remove (node M values children) value =
      ⟨node M values (children.set (binarySearchHelper values value).toNat (remove c value).tree),
        (remove c value).raised⟩ := by
  simp [remove, h, hne, hneg, removeAt_eq hc]

theorem remove_min_error {M : Int} {values : List Int} {children : List MTree} {value : Int}
    {c : MTree} {e : Exn} (h : search (node M values children) value = true)
    (hne : children.isEmpty = false) (h0 : 0 ≤ binarySearch values value)
    (hlt : binarySearch values value < (values.length : Int) - 1)
    (hc : children[(binarySearch values value + 1).toNat]? = some c)
    (hmin : findMin c = .error e) :
    remove (node M values children) value = ⟨node M values children, some e⟩ := by
  simp [remove, h, hne, h0, hlt, hc, hmin]

theorem remove_min_ok {M : Int} {values : List Int} {children : List MTree} {value : Int}
    {c c' : MTree} {m : Int} (h : search (node M values children) value = true)
    (hne : children.isEmpty = false) (h0 : 0 ≤ binarySearch values value)
    (hlt : binarySearch values value < (values.length : Int) - 1)
    (hc : children[(binarySearch values value + 1).toNat]? = some c)
    (hmin : findMin c = .ok m) (hrem : remove c m = ⟨c', none⟩) :
    remove (node M values children) value =
      rebuild (node M (values.set (binarySearch values value).toNat m)
        (children.set (binarySearch values value + 1).toNat c')) := by
  simp [remove, h, hne, h0, hlt, hc, hmin, removeAt_eq hc, hrem]

theorem remove_max_error {M : Int} {values : List Int} {children : List MTree} {value : Int}
    {c : MTree} {e : Exn} (h : search (node M values children) value = true)
    (hne : children.isEmpty = false) (h0 : 0 ≤ binarySearch values value)
    (hlt : ¬ binarySearch values value < (values.length : Int) - 1)
    (hc : children[(binarySearch values value).toNat]? = some c)
    (hmax : findMax c = .error e) :
    remove (node M values children) value = ⟨node M values children, some e⟩ := by
  simp [remove, h, hne, h0, hlt, hc, hmax]

theorem remove_max_ok {M : Int} {values : List Int} {children : List MTree} {value : Int}
    {c c' : MTree} {m : Int} (h : search (node M values children) value = true)
    (hne : children.isEmpty = false) (h0 : 0 ≤ binarySearch values value)
    (hlt : ¬ binarySearch values value < (values.length : Int) - 1)
    (hc : children[(binarySearch values value).toNat]? = some c)
    (hmax : findMax c = .ok m) (hrem : remove c m = ⟨c', none⟩) :
    remove (node M values children) value =
      rebuild (node M (values.set (binarySearch values value).toNat m)
        (children.set (binarySearch values value).toNat c')) := by
  simp [remove, h, hne, h0, hlt, hc, hmax, removeAt_eq hc, hrem]


/-! ### `remove`: the replacement key is removed from a leaf -/

theorem search_of_mem_allKeys {M : Int} {t : MTree} (hwf : wellFormed M t = true) {k : Int}
    (hk : k ∈ allKeys t) : search t k = true :=
  (search_iff M t hwf k).2 ((mem_flat_iff hwf k).2 hk)

theorem isEmpty_false_of_length {values : List Int} {children : List MTree}
    (hlen : children.length = values.length + 1) : children.isEmpty = false := by
  cases children with
  | nil => simp at hlen
  | cons c cs => rfl

/-- Removing the key that `findMin` returns raises nothing. -/
theorem remove_findMin (M : Int) : ∀ t, wellFormed M t = true →
    ∀ m, findMin t = .ok m → (remove t m).raised = none := by
  intro t
  induction t using induct with
  | h M' values children ih =>
    intro hwf m hm
    obtain ⟨_, hs, hshape, hb, hch⟩ := wellFormed_node.1 hwf
    have hsearch := search_of_mem_allKeys hwf (findMin_mem _ m hm)
    rcases hshape with rfl | hlen
    · exact remove_leaf hsearch
    · have hB := (boundsOK_iff hlen).1 hb
      cases children with
      | nil => simp at hlen
      | cons c cs =>
        simp only [findMin] at hm
        have hmc := findMin_mem c m hm
        have hc0 : (c :: cs)[0]? = some c := by simp
        have hbelow : ∀ (j : Nat) (x : Int), values[j]? = some x → m < x := fun j x hx =>
          (Between.child hs hlen hB hc0 hmc hx).2 (Nat.zero_le _)
        have hv : m ∉ values := by
          intro h
          obtain ⟨j, hj⟩ := List.mem_iff_getElem?.1 h
          exact lt_irrefl _ (hbelow j m hj)
        have hneg : ¬ 0 ≤ binarySearch values m := fun h =>
          hv ((binarySearch_nonneg_iff m hs).1 h)
        obtain ⟨h0, h1, hlo, _⟩ := binarySearchHelper_spec hs hv
        have hidx : (binarySearchHelper values m).toNat = 0 := by
          by_contra hne
          have hpos : 0 < values.length := by omega
          have h2 := hlo 0 _ (List.getElem?_eq_getElem hpos) (by omega)
          have h3 := hbelow 0 _ (List.getElem?_eq_getElem hpos)
          omega
        rw [remove_descend hsearch rfl hneg (by rw [hidx]; exact hc0)]
        exact ih c (List.mem_cons_self _ _) (hch c (List.mem_cons_self _ _)) m hm

/-- Removing the key that `findMax` returns raises nothing. -/
theorem remove_findMax (M : Int) : ∀ t, wellFormed M t = true →
    ∀ m, findMax t = .ok m → (remove t m).raised = none := by
  intro t
  induction t using induct with
  | h M' values children ih =>
    intro hwf m hm
    obtain ⟨_, hs, hshape, hb, hch⟩ := wellFormed_node.1 hwf
    have hsearch := search_of_mem_allKeys hwf (findMax_mem _ m hm)
    rcases hshape with rfl | hlen
    · exact remove_leaf hsearch
    · have hB := (boundsOK_iff hlen).1 hb
      have hne : children ≠ [] := by
        intro h
        simp [h] at hlen
      obtain ⟨c, hc, hcm⟩ := last_child hne
      have hcl : children.length - 1 = values.length := by omega
      rw [hcl] at hc
      rw [findMax_internal (by omega) hc] at hm
      have hmc := findMax_mem c m hm
      have habove : ∀ (j : Nat) (x : Int), values[j]? = some x → x < m := fun j x hx =>
        (Between.child hs hlen hB hc hmc hx).1 (List.getElem?_eq_some.1 hx).1
      have hv : m ∉ values := by
        intro h
        obtain ⟨j, hj⟩ := List.mem_iff_getElem?.1 h
        exact lt_irrefl _ (habove j m hj)
      have hneg : ¬ 0 ≤ binarySearch values m := fun h =>
        hv ((binarySearch_nonneg_iff m hs).1 h)
      obtain ⟨h0, h1, _, hhi⟩ := binarySearchHelper_spec hs hv
      have hidx : (binarySearchHelper values m).toNat = values.length := by
        by_contra hne2
        have hlt : (binarySearchHelper values m).toNat < values.length := by omega
        have h2 := hhi _ _ (List.getElem?_eq_getElem hlt) (by omega)
        have h3 := habove _ _ (List.getElem?_eq_getElem hlt)
        omega
      rw [remove_descend hsearch (isEmpty_false_of_length hlen) hneg (by rw [hidx]; exact hc)]
      exact ih c hcm (hch c hcm) m hm

/-! ### `remove`: the in-order sequence around a key of an internal node -/

theorem weave_head {vs : List Int} {cs : List MTree} (h : cs.length = vs.length) :
    ∃ B, ∀ c, weave vs (c :: cs) = flat c ++ B := by
  cases vs with
  | nil => exact ⟨[], fun c => by simp [weave]⟩
  | cons v vs' => exact ⟨v :: weave vs' cs, fun c => by simp [weave]⟩

theorem weave_zip_value : ∀ (i : Nat) {values : List Int} {children : List MTree} {x : Int},
    children.length = values.length + 1 → values[i]? = some x →
    ∃ A B cl cr, children[i]? = some cl ∧ children[i + 1]? = some cr ∧
      weave values children = A ++ flat cl ++ x :: flat cr ++ B ∧
      (∀ y cl', weave (values.set i y) (children.set i cl') =
        A ++ flat cl' ++ y :: flat cr ++ B) ∧
      (∀ y cr', weave (values.set i y) (children.set (i + 1) cr') =
        A ++ flat cl ++ y :: flat cr' ++ B)
  | _, [], _, _, _, hx => by simp at hx
  | _, _ :: _, [], _, h, _ => by simp at h
  | _, _ :: _, [_], _, h, _ => by simp at h
  | 0, v :: vs, cl :: cr :: cs, x, h, hx => by
    simp at hx
    subst hx
    obtain ⟨B, hB⟩ := @weave_head vs cs (by simpa using h)
    exact ⟨[], B, cl, cr, by simp, by simp, by simp [weave, hB],
      fun y cl' => by simp [weave, hB], fun y cr' => by simp [weave, hB]⟩
  | i + 1, v :: vs, d :: d' :: cs, x, h, hx => by
    obtain ⟨A, B, cl, cr, h1, h2, h3, h4, h5⟩ :=
      @weave_zip_value i vs (d' :: cs) x (by simpa using h)
        (by simpa using hx)
    refine ⟨flat d ++ v :: A, B, cl, cr, by simpa using h1, by simpa using h2, ?_, ?_, ?_⟩
    · simp only [weave] at h3 ⊢
      simp [h3]
    · intro y cl'
      have := h4 y cl'
      simp only [List.set_cons_succ, weave]
      simp [this]
    · intro y cr'
      have := h5 y cr'
      simp only [List.set_cons_succ] at this
      simp only [List.set_cons_succ, weave]
      simp [this]

theorem perm_cons_eraseIdx : ∀ {values : List Int} {i : Nat} {v : Int},
    values[i]? = some v → values.Perm (v :: values.eraseIdx i)
  | [], _, _, h => by simp at h
  | a :: l, 0, v, h => by
    simp at h
    simp [h]
  | a :: l, i + 1, v, h => by
    have ih := @perm_cons_eraseIdx l i v (by simpa using h)
    simp only [List.eraseIdx_cons_succ]
    exact (List.Perm.cons a ih).trans (List.Perm.swap v a _)

/-! ### `remove` -/

/-- The rebuild step of `remove` on a node of the right shape with well-formed children and
distinct keys. -/
theorem rebuild_spec {M : Int} (hM : 1 ≤ M) {values : List Int} {children : List MTree}
    (hlen : children.length = values.length + 1)
    (hch : ∀ c ∈ children, wellFormed M c = true)
    (hnd : (weave values children).Nodup) :
    ∃ t', rebuild (node M values children) = ⟨t', none⟩ ∧ wellFormed M t' = true ∧
      (flat t').Perm (weave values children) := by
  have hne : children ≠ [] := by
    intro h
    simp [h] at hlen
  have hcol : collect_values (node M values children) = .ok (weave values children) := by
    have := inOrderTraversal_node (M := M) (Or.inr hlen)
      (fun c hc => inOrderTraversal_eq M c (hch c hc)) []
    simpa [collect_values, flat_internal M values hne] using this
  obtain ⟨t', h1, h2, h3⟩ := buildTree_spec hM values children hnd
  exact ⟨t', by simp [rebuild, hcol, h1], h2, h3⟩


theorem perm_zip_child {A B X Y : List Int} {v : Int} (h : X.Perm (v :: Y)) :
    (A ++ X ++ B).Perm (v :: (A ++ Y ++ B)) := by
  rw [List.perm_iff_count]
  intro a
  have := h.count_eq a
  simp only [List.count_append, List.count_cons] at this ⊢
  omega

theorem perm_zip_right {A B L X Y : List Int} {v m : Int} (h : X.Perm (m :: Y)) :
    (A ++ L ++ v :: X ++ B).Perm (v :: (A ++ L ++ m :: Y ++ B)) := by
  rw [List.perm_iff_count]
  intro a
  have := h.count_eq a
  simp only [List.count_append, List.count_cons] at this ⊢
  omega

theorem perm_zip_left {A B R X Y : List Int} {v m : Int} (h : X.Perm (m :: Y)) :
    (A ++ X ++ v :: R ++ B).Perm (v :: (A ++ Y ++ m :: R ++ B)) := by
  rw [List.perm_iff_count]
  intro a
  have := h.count_eq a
  simp only [List.count_append, List.count_cons] at this ⊢
  omega

/-- Removing a key that is in a well-formed tree either stops at the structural error of
`findMin`/`findMax` with the tree untouched, or returns normally with a well-formed tree
whose in-order sequence lost exactly that key. -/
theorem remove_spec {M : Int} (hM : 1 ≤ M) : ∀ t, wellFormed M t = true →
    ∀ value, value ∈ flat t →
    remove t value = ⟨t, some .runtimeError⟩ ∨
    ∃ t', remove t value = ⟨t', none⟩ ∧ wellFormed M t' = true ∧
      (flat t).Perm (value :: flat t') := by
  intro t
  induction t using induct with
  | h M' values children ih =>
    intro hwf v hv
    obtain ⟨hMM, hs, hshape, hb, hch⟩ := wellFormed_node.1 hwf
    subst hMM
    have hsearch : search (node M' values children) v = true := (search_iff M' _ hwf v).2 hv
    rcases hshape with rfl | hlen
    · have hvm : v ∈ values := by simpa [flat_leaf] using hv
      rcases binarySearch_spec v hs with ⟨h0, hi⟩ | ⟨_, hn⟩
      · right
        refine ⟨_, remove_leaf_found hsearch h0 hi, ?_, ?_⟩
        · exact wellFormed_node.2 ⟨rfl, hs.sublist (List.eraseIdx_sublist _ _), Or.inl rfl,
            boundsOK_nil _, by simp⟩
        · rw [flat_leaf, flat_leaf]
          exact perm_cons_eraseIdx hi
      · exact absurd hvm hn
    · have hne := isEmpty_false_of_length hlen
      have hne' : children ≠ [] := by
        intro h
        simp [h] at hlen
      have hB := (boundsOK_iff hlen).1 hb
      have hnd : (flat (node M' values children)).Nodup := nodup_of_increasing (flat_sorted hwf)
      rw [flat_internal M' values hne'] at hnd
      by_cases hvm : v ∈ values
      · rcases binarySearch_spec v hs with ⟨h0, hi⟩ | ⟨_, hn⟩
        swap
        · exact absurd hvm hn
        obtain ⟨A, B, cl, cr, hcl, hcr, hw, hwl, hwr⟩ := weave_zip_value _ hlen hi
        have hclm : cl ∈ children := List.mem_iff_getElem?.2 ⟨_, hcl⟩
        have hcrm : cr ∈ children := List.mem_iff_getElem?.2 ⟨_, hcr⟩
        by_cases hlt : binarySearch values v < (values.length : Int) - 1
        · have hidx : (binarySearch values v + 1).toNat = (binarySearch values v).toNat + 1 := by
            omega
          have hc : children[(binarySearch values v + 1).toNat]? = some cr := by
            rw [hidx]
            exact hcr
          cases hmin : findMin cr with
          | error e =>
            left
            rw [remove_min_error hsearch hne h0 hlt hc hmin, findMin_error _ _ hmin]
          | ok m =>
            have hmem : m ∈ flat cr :=
              (mem_flat_iff (hch cr hcrm) m).2 (findMin_mem _ _ hmin)
            have hnone := remove_findMin M' cr (hch cr hcrm) m hmin
            rcases ih cr hcrm (hch cr hcrm) m hmem with hrt | ⟨c', hrem, hwfc', hperm⟩
            · rw [hrt] at hnone
              cases hnone
            · right
              rw [remove_min_ok hsearch hne h0 hlt hc hmin hrem, hidx]
              have hp : (flat (node M' values children)).Perm
                  (v :: weave (values.set (binarySearch values v).toNat m)
                    (children.set ((binarySearch values v).toNat + 1) c')) := by
                rw [flat_internal M' values hne', hw, hwr m c']
                exact perm_zip_right hperm
              rw [flat_internal M' values hne'] at hp
              obtain ⟨t', h1, h2, h3⟩ := @rebuild_spec M' hM
                (values.set (binarySearch values v).toNat m)
                (children.set ((binarySearch values v).toNat + 1) c')
                (by simpa using hlen)
                (fun d hd => by
                  rcases List.mem_or_eq_of_mem_set hd with h | rfl
                  · exact hch d h
                  · exact hwfc')
                (List.nodup_cons.1 (hp.nodup_iff.1 hnd)).2
              refine ⟨t', h1, h2, ?_⟩
              rw [flat_internal M' values hne']
              exact hp.trans (List.Perm.cons v h3.symm)
        · have hc : children[(binarySearch values v).toNat]? = some cl := hcl
          cases hmax : findMax cl with
          | error e =>
            left
            rw [remove_max_error hsearch hne h0 hlt hc hmax, findMax_error _ _ hmax]
          | ok m =>
            have hmem : m ∈ flat cl :=
              (mem_flat_iff (hch cl hclm) m).2 (findMax_mem _ _ hmax)
            have hnone := remove_findMax M' cl (hch cl hclm) m hmax
            rcases ih cl hclm (hch cl hclm) m hmem with hrt | ⟨c', hrem, hwfc', hperm⟩
            · rw [hrt] at hnone
              cases hnone
            · right
              rw [remove_max_ok hsearch hne h0 hlt hc hmax hrem]
              have hp : (flat (node M' values children)).Perm
                  (v :: weave (values.set (binarySearch values v).toNat m)
                    (children.set (binarySearch values v).toNat c')) := by
                rw [flat_internal M' values hne', hw, hwl m c']
                exact perm_zip_left hperm
              rw [flat_internal M' values hne'] at hp
              obtain ⟨t', h1, h2, h3⟩ := @rebuild_spec M' hM
                (values.set (binarySearch values v).toNat m)
                (children.set (binarySearch values v).toNat c')
                (by simpa using hlen)
                (fun d hd => by
                  rcases List.mem_or_eq_of_mem_set hd with h | rfl
                  · exact hch d h
                  · exact hwfc')
                (List.nodup_cons.1 (hp.nodup_iff.1 hnd)).2
              refine ⟨t', h1, h2, ?_⟩
              rw [flat_internal M' values hne']
              exact hp.trans (List.Perm.cons v h3.symm)
      · have hneg : ¬ 0 ≤ binarySearch values v := fun h =>
          hvm ((binarySearch_nonneg_iff v hs).1 h)
        obtain ⟨c, hc, hiff⟩ := child_of_key hs hlen hB hvm
        have hcm : c ∈ children := List.mem_iff_getElem?.2 ⟨_, hc⟩
        have hvc : v ∈ flat c := by
          rw [mem_flat_iff (hch c hcm)]
          rcases mem_allKeys_node.1 ((mem_flat_iff hwf v).1 hv) with h | h
          · exact absurd h hvm
          · exact hiff.1 h
        rw [remove_descend hsearch hne hneg hc]
        rcases ih c hcm (hch c hcm) v hvc with hrt | ⟨c', hrem, hwfc', hperm⟩
        · left
          rw [hrt]
          simp [set_self hc]
        · right
          rw [hrem]
          refine ⟨_, rfl, wellFormed_set hwf hc hwfc' ?_, ?_⟩
          · intro k hk
            left
            rw [← mem_flat_iff (hch c hcm)]
            exact hperm.mem_iff.2 (List.mem_cons_of_mem _ ((mem_flat_iff hwfc' k).2 hk))
          · obtain ⟨A, B, hz, hz'⟩ := weave_zip _ hlen hc
            have hne2 : children.set (binarySearchHelper values v).toNat c' ≠ [] := by
              intro h
              have := congrArg List.length h
              simp at this
              exact hne' this
            rw [flat_internal _ _ hne', flat_internal _ _ hne2, hz, hz' c']
            exact perm_zip_child hperm


/-! ### Reachable trees are well-formed -/

theorem mem_subtreesList {n : MTree} : ∀ {cs : List MTree},
    n ∈ subtreesList cs ↔ ∃ c ∈ cs, n ∈ subtrees c
  | [] => by simp [subtreesList]
  | c :: cs => by simp [subtreesList, @mem_subtreesList n cs]

theorem wellFormed_subtrees (M : Int) : ∀ t, wellFormed M t = true →
    ∀ n ∈ subtrees t, wellFormed M n = true := by
  intro t
  induction t using induct with
  | h M' values children ih =>
    intro hwf n hn
    simp only [subtrees, List.mem_cons, mem_subtreesList] at hn
    rcases hn with rfl | ⟨c, hc, hnc⟩
    · exact hwf
    · exact ih c hc ((wellFormed_node.1 hwf).2.2.2.2 c hc) n hnc

theorem wellFormed_order {M : Int} {t : MTree} (h : wellFormed M t = true) :
    ∃ values children, t = node M values children := by
  cases t with
  | node M' values children =>
    obtain ⟨hM, _⟩ := wellFormed_node.1 h
    exact ⟨values, children, by rw [hM]⟩

theorem remove_ok_spec {M : Int} (hM : 1 ≤ M) {t t' : MTree} (hwf : wellFormed M t = true)
    {value : Int} (h : remove t value = ⟨t', none⟩) :
    wellFormed M t' = true ∧ (flat t).Perm (value :: flat t') := by
  by_cases hv : value ∈ flat t
  · rcases remove_spec hM t hwf value hv with hrt | ⟨t'', h1, h2, h3⟩
    · rw [hrt] at h
      simp at h
    · rw [h1] at h
      cases h
      exact ⟨h2, h3⟩
  · have hs : search t value = false := by
      rw [← Bool.not_eq_true, search_iff M t hwf]
      exact hv
    rw [remove_of_not_search hs] at h
    simp at h

theorem insertValue_ok_spec {M : Int} (hM : 1 ≤ M) {t t' : MTree}
    (hwf : wellFormed M t = true) {value : Int} (h : insertValue t value = ⟨t', none⟩) :
    wellFormed M t' = true ∧ (flat t').Perm (value :: flat t) := by
  by_cases hv : value ∈ flat t
  · rw [insertValue_of_search ((search_iff M t hwf value).2 hv)] at h
    simp at h
  · obtain ⟨t'', h1, h2, h3⟩ := insertValue_spec hM t hwf value hv
    rw [h1] at h
    cases h
    exact ⟨h2, h3⟩

theorem reachable_wellFormed {M : Int} (hM : 1 ≤ M) {t : MTree} (hr : Reachable M t) :
    wellFormed M t = true := by
  induction hr with
  | fresh => exact wellFormed_fresh M
  | insertValue value _ heq ih => exact (insertValue_ok_spec hM ih heq).1
  | remove value _ heq ih => exact (remove_ok_spec hM ih heq).1
  | buildTree inputValues _ hnd heq ih =>
    obtain ⟨values, children, rfl⟩ := wellFormed_order ih
    obtain ⟨t'', h1, h2, _⟩ := buildTree_spec hM values children hnd
    rw [h1] at heq
    cases heq
    exact h2

theorem collect_values_inj {M : Int} {t : MTree} (hwf : wellFormed M t = true)
    {xs : List Int} (h : collect_values t = .ok xs) : xs = flat t := by
  rw [collect_values_eq_flat hwf] at h
  cases h
  rfl

/-! ### The claims of the specification -/

/-- C1: on a well-formed tree, `search(k)` returns true if and only if `k` occurs in
`collect_values()`. The bound `M ≥ 2` of the data model is not needed: `search` never
looks at `M`. -/
theorem search_iff_mem_collect_values (M : Int) (t : MTree) (k : Int)
    (hwf : wellFormed M t = true) :
    search t k = true ↔ ∃ xs, collect_values t = .ok xs ∧ k ∈ xs := by
  rw [search_iff M t hwf k, collect_values_eq_flat hwf]
  constructor
  · intro h
    exact ⟨_, rfl, h⟩
  · rintro ⟨xs, hxs, h⟩
    cases hxs
    exact h

theorem search_iff_mem_collect_values_witness :
    wellFormed 3 scenarioTree = true ∧
      (search scenarioTree 5 = true ↔
        ∃ xs, collect_values scenarioTree = .ok xs ∧ (5 : Int) ∈ xs) :=
  ⟨by decide, search_iff_mem_collect_values 3 scenarioTree 5 (by decide)⟩

/-- C2: on a well-formed tree with `M ≥ 2`, inserting a key `k` that is not in
`collect_values()` returns without raising, and `collect_values()` afterwards is the previous
sequence with `k` inserted at its sorted position. -/
theorem insertValue_collect_values (M : Int) (t : MTree) (k : Int) (xs : List Int)
    (hM : 2 ≤ M) (hwf : wellFormed M t = true) (hxs : collect_values t = .ok xs)
    (hk : k ∉ xs) :
    ∃ t', insertValue t k = ⟨t', none⟩ ∧
      collect_values t' = .ok (xs.orderedInsert (fun a b => a ≤ b) k) := by
  have hx := collect_values_inj hwf hxs
  subst hx
  obtain ⟨t', h1, h2, h3⟩ := insertValue_spec (by omega) t hwf k hk
  refine ⟨t', h1, ?_⟩
  rw [collect_values_eq_flat h2]
  congr 1
  exact List.eq_of_perm_of_sorted
    (h3.trans (List.perm_orderedInsert _ k (flat t)).symm)
    (sorted_le_of_lt (flat_sorted h2))
    (List.Sorted.orderedInsert k _ (sorted_le_of_lt (flat_sorted hwf)))

theorem insertValue_collect_values_witness :
    (2 : Int) ≤ 3 ∧ wellFormed 3 scenarioTree = true ∧
      collect_values scenarioTree = .ok [1, 2, 3, 4, 5, 6, 7] ∧ (8 : Int) ∉ [1, 2, 3, 4, 5, 6, 7] ∧
      ∃ t', insertValue scenarioTree 8 = ⟨t', none⟩ ∧
        collect_values t' =
          .ok (([1, 2, 3, 4, 5, 6, 7] : List Int).orderedInsert (fun a b => a ≤ b) 8) :=
  ⟨by decide, by decide, rfl, by decide,
    insertValue_collect_values 3 scenarioTree 8 [1, 2, 3, 4, 5, 6, 7] (by decide) (by decide)
      rfl (by decide)⟩

/-- C3: on a well-formed tree with `M ≥ 2`, if `remove(k)` returns normally then
`collect_values()` afterwards is the previous sequence with `k` deleted, and the resulting
tree is again well-formed. -/
theorem remove_collect_values (M : Int) (t t' : MTree) (k : Int) (xs : List Int)
    (hM : 2 ≤ M) (hwf : wellFormed M t = true) (hxs : collect_values t = .ok xs)
    (hrem : remove t k = ⟨t', none⟩) :
    collect_values t' = .ok (xs.erase k) ∧ wellFormed M t' = true := by
  have hx := collect_values_inj hwf hxs
  subst hx
  obtain ⟨h2, h3⟩ := remove_ok_spec (by omega) hwf hrem
  refine ⟨?_, h2⟩
  rw [collect_values_eq_flat h2]
  congr 1
  have hp : ((flat t).erase k).Perm (flat t') := by
    simpa using h3.erase k
  exact (eq_of_perm_of_increasing hp
    ((flat_sorted hwf).sublist (List.erase_sublist k (flat t))) (flat_sorted h2)).symm

theorem remove_collect_values_witness :
    (2 : Int) ≤ 3 ∧ wellFormed 3 scenarioTree = true ∧
      collect_values scenarioTree = .ok [1, 2, 3, 4, 5, 6, 7] ∧
      remove scenarioTree 4 =
        ⟨node 3 [2] [node 3 [1] [], node 3 [5] [node 3 [3] [], node 3 [6, 7] []]], none⟩ ∧
      collect_values (node 3 [2] [node 3 [1] [], node 3 [5] [node 3 [3] [], node 3 [6, 7] []]])
          = .ok (([1, 2, 3, 4, 5, 6, 7] : List Int).erase 4) ∧
      wellFormed 3 (node 3 [2] [node 3 [1] [], node 3 [5] [node 3 [3] [], node 3 [6, 7] []]])
          = true :=
  ⟨by decide, by decide, rfl, rfl,
    remove_collect_values 3 scenarioTree _ 4 [1, 2, 3, 4, 5, 6, 7] (by decide) (by decide)
      rfl rfl⟩

/-- C4, at the failing input: the tree left by `buildTree([1,2,3])` and `remove(1)` with
`M = 3` is reachable and holds the key `2`, yet `remove(2)` raises the structural error of
`findMax` (and leaves the tree as it was) instead of removing the key. -/
theorem remove_present_key_raises :
    Reachable 3 emptiedLeafTree ∧ collect_values emptiedLeafTree = .ok [2, 3] ∧
      remove emptiedLeafTree 2 = ⟨emptiedLeafTree, some .runtimeError⟩ :=
  ⟨Reachable.remove 1
      (Reachable.buildTree [1, 2, 3] Reachable.fresh (by decide)
        (rfl : buildTree (fresh 3) [1, 2, 3] = ⟨node 3 [2] [node 3 [1] [], node 3 [3] []], none⟩))
      rfl,
    rfl, rfl⟩


theorem mem_flat_iff_collect_values {M : Int} {t : MTree} (hwf : wellFormed M t = true)
    {k : Int} : k ∈ flat t ↔ ∃ xs, collect_values t = .ok xs ∧ k ∈ xs := by
  rw [collect_values_eq_flat hwf]
  constructor
  · intro h
    exact ⟨_, rfl, h⟩
  · rintro ⟨xs, hxs, h⟩
    cases hxs
    exact h

/-- C5: on a well-formed tree with `M ≥ 2`, `insertValue(k)` raises `DuplicateInsertion` if
and only if `k` is in `collect_values()`, and when it does the tree is what it was before
the call. -/
theorem insertValue_duplicate_iff (M : Int) (t : MTree) (k : Int) (hM : 2 ≤ M)
    (hwf : wellFormed M t = true) :
    ((insertValue t k).raised = some .duplicateInsertion ↔
        ∃ xs, collect_values t = .ok xs ∧ k ∈ xs) ∧
      ((insertValue t k).raised = some .duplicateInsertion → (insertValue t k).tree = t) := by
  rw [← mem_flat_iff_collect_values hwf]
  by_cases hk : k ∈ flat t
  · rw [insertValue_of_search ((search_iff M t hwf k).2 hk)]
    simp [hk]
  · obtain ⟨t', h1, _, _⟩ := insertValue_spec (by omega) t hwf k hk
    rw [h1]
    simp [hk]

theorem insertValue_duplicate_iff_witness :
    (2 : Int) ≤ 3 ∧ wellFormed 3 scenarioTree = true ∧
      (((insertValue scenarioTree 3).raised = some .duplicateInsertion ↔
          ∃ xs, collect_values scenarioTree = .ok xs ∧ (3 : Int) ∈ xs) ∧
        ((insertValue scenarioTree 3).raised = some .duplicateInsertion →
          (insertValue scenarioTree 3).tree = scenarioTree)) :=
  ⟨by decide, by decide, insertValue_duplicate_iff 3 scenarioTree 3 (by decide) (by decide)⟩

/-- C6: on a well-formed tree with `M ≥ 2`, `remove(k)` raises `NotFoundException` if and
only if `k` is not in `collect_values()`, and when it does the tree is what it was before
the call. -/
theorem remove_notFound_iff (M : Int) (t : MTree) (k : Int) (hM : 2 ≤ M)
    (hwf : wellFormed M t = true) :
    ((remove t k).raised = some .notFound ↔
        ¬ ∃ xs, collect_values t = .ok xs ∧ k ∈ xs) ∧
      ((remove t k).raised = some .notFound → (remove t k).tree = t) := by
  rw [← mem_flat_iff_collect_values hwf]
  by_cases hk : k ∈ flat t
  · rcases remove_spec (by omega) t hwf k hk with h | ⟨t', h, _, _⟩
    · rw [h]
      simp [hk]
    · rw [h]
      simp [hk]
  · have hs : search t k = false := by
      rw [← Bool.not_eq_true, search_iff M t hwf]
      exact hk
    rw [remove_of_not_search hs]
    simp [hk]

theorem remove_notFound_iff_witness :
    (2 : Int) ≤ 3 ∧ wellFormed 3 scenarioTree = true ∧
      (((remove scenarioTree 99).raised = some .notFound ↔
          ¬ ∃ xs, collect_values scenarioTree = .ok xs ∧ (99 : Int) ∈ xs) ∧
        ((remove scenarioTree 99).raised = some .notFound →
          (remove scenarioTree 99).tree = scenarioTree)) :=
  ⟨by decide, by decide, remove_notFound_iff 3 scenarioTree 99 (by decide) (by decide)⟩

/-- C7: in every tree obtained from a fresh `MTree(M)`, `M ≥ 2`, by calls of `insertValue`,
`remove` and `buildTree` (on distinct keys) that return normally, `collect_values()` is
strictly increasing, hence has no duplicates. -/
theorem reachable_collect_values_increasing (M : Int) (t : MTree) (hM : 2 ≤ M)
    (hr : Reachable M t) :
    ∃ xs, collect_values t = .ok xs ∧ xs.Pairwise (fun a b => a < b) ∧ xs.Nodup := by
  have hwf := reachable_wellFormed (by omega) hr
  exact ⟨flat t, collect_values_eq_flat hwf, flat_sorted hwf,
    nodup_of_increasing (flat_sorted hwf)⟩

theorem reachable_collect_values_increasing_witness :
    (2 : Int) ≤ 3 ∧ Reachable 3 scenarioTree ∧
      ∃ xs, collect_values scenarioTree = .ok xs ∧ xs.Pairwise (fun a b => a < b) ∧ xs.Nodup :=
  ⟨by decide,
    Reachable.buildTree [1, 2, 3, 4, 5, 6, 7] Reachable.fresh (by decide) rfl,
    reachable_collect_values_increasing 3 scenarioTree (by decide)
      (Reachable.buildTree [1, 2, 3, 4, 5, 6, 7] Reachable.fresh (by decide) rfl)⟩

/-- C8: in every tree reachable from a fresh `MTree(M)`, `M ≥ 2`, every internal node has
one more child than keys, and for every key index `i` the keys in the subtree `children[i]`
are less than `values[i]` and the keys in the subtree `children[i+1]` are greater. -/
theorem reachable_search_tree_invariant (M : Int) (t : MTree) (hM : 2 ≤ M)
    (hr : Reachable M t) :
    ∀ M' values children, node M' values children ∈ subtrees t → children ≠ [] →
      children.length = values.length + 1 ∧
      ∀ (i : Nat) (x : Int), values[i]? = some x →
        ∃ cl cr, children[i]? = some cl ∧ children[i + 1]? = some cr ∧
          (∀ k ∈ allKeys cl, k < x) ∧ (∀ k ∈ allKeys cr, x < k) := by
  intro M' values children hn hne
  have hwf := wellFormed_subtrees M t (reachable_wellFormed (by omega) hr) _ hn
  obtain ⟨_, _, hshape, hb, _⟩ := wellFormed_node.1 hwf
  have hlen := hshape.resolve_left hne
  have hB := (boundsOK_iff hlen).1 hb
  refine ⟨hlen, fun i x hx => ?_⟩
  obtain ⟨hi, _⟩ := List.getElem?_eq_some.1 hx
  have h1 : i < children.length := by omega
  have h2 : i + 1 < children.length := by omega
  exact ⟨children[i], children[i + 1], List.getElem?_eq_getElem h1,
    List.getElem?_eq_getElem h2,
    hB.1 i _ x (List.getElem?_eq_getElem h1) hx,
    hB.2 i _ x (List.getElem?_eq_getElem h2) hx⟩

theorem reachable_search_tree_invariant_witness :
    (2 : Int) ≤ 3 ∧ Reachable 3 scenarioTree ∧
      ∀ M' values children, node M' values children ∈ subtrees scenarioTree → children ≠ [] →
        children.length = values.length + 1 ∧
        ∀ (i : Nat) (x : Int), values[i]? = some x →
          ∃ cl cr, children[i]? = some cl ∧ children[i + 1]? = some cr ∧
            (∀ k ∈ allKeys cl, k < x) ∧ (∀ k ∈ allKeys cr, x < k) :=
  ⟨by decide,
    Reachable.buildTree [1, 2, 3, 4, 5, 6, 7] Reachable.fresh (by decide) rfl,
    reachable_search_tree_invariant 3 scenarioTree (by decide)
      (Reachable.buildTree [1, 2, 3, 4, 5, 6, 7] Reachable.fresh (by decide) rfl)⟩

/-- C9: for every list `xs` of pairwise distinct keys, every `M ≥ 2` and every receiver with
that `M`, `buildTree(xs)` returns normally and `collect_values()` afterwards is `xs` sorted in
ascending order; the result does not depend on what the receiver held. -/
theorem buildTree_collect_values_sorted (M : Int) (values : List Int) (children : List MTree)
    (xs : List Int) (hM : 2 ≤ M) (hxs : xs.Nodup) :
    ∃ t', buildTree (node M values children) xs = ⟨t', none⟩ ∧
      collect_values t' = .ok (xs.insertionSort (fun a b => a ≤ b)) ∧
      buildTree (node M values children) xs = buildTree (fresh M) xs := by
  obtain ⟨t', h1, h2, h3⟩ := buildTree_spec (by omega : 1 ≤ M) values children hxs
  refine ⟨t', h1, ?_, rfl⟩
  rw [collect_values_eq_flat h2]
  congr 1
  exact List.eq_of_perm_of_sorted
    (h3.trans (List.perm_insertionSort _ xs).symm)
    (sorted_le_of_lt (flat_sorted h2))
    (List.sorted_insertionSort _ xs)

theorem buildTree_collect_values_sorted_witness :
    (2 : Int) ≤ 3 ∧ ([5, 3, 8, 1] : List Int).Nodup ∧
      ∃ t', buildTree (node 3 [2] [node 3 [] [], node 3 [3] []]) [5, 3, 8, 1] = ⟨t', none⟩ ∧
        collect_values t' = .ok (([5, 3, 8, 1] : List Int).insertionSort (fun a b => a ≤ b)) ∧
        buildTree (node 3 [2] [node 3 [] [], node 3 [3] []]) [5, 3, 8, 1]
          = buildTree (fresh 3) [5, 3, 8, 1] :=
  ⟨by decide, by decide,
    buildTree_collect_values_sorted 3 [2] [node 3 [] [], node 3 [3] []] [5, 3, 8, 1]
      (by decide) (by decide)⟩

/-- C10: for every well-formed tree with `M ≥ 2`, `buildTree(collect_values())` returns
normally and leaves `collect_values()` equal to what it was before the rebuild. -/
theorem buildTree_collect_values_round_trip (M : Int) (t : MTree) (xs : List Int)
    (hM : 2 ≤ M) (hwf : wellFormed M t = true) (hxs : collect_values t = .ok xs) :
    ∃ t', buildTree t xs = ⟨t', none⟩ ∧ collect_values t' = .ok xs := by
  have hx := collect_values_inj hwf hxs
  subst hx
  obtain ⟨values, children, rfl⟩ := wellFormed_order hwf
  obtain ⟨t', h1, h2, h3⟩ := buildTree_spec (by omega : 1 ≤ M) values children
    (nodup_of_increasing (flat_sorted hwf))
  refine ⟨t', h1, ?_⟩
  rw [collect_values_eq_flat h2]
  congr 1
  exact eq_of_perm_of_increasing h3 (flat_sorted h2) (flat_sorted hwf)

theorem buildTree_collect_values_round_trip_witness :
    (2 : Int) ≤ 3 ∧ wellFormed 3 scenarioTree = true ∧
      collect_values scenarioTree = .ok [1, 2, 3, 4, 5, 6, 7] ∧
      ∃ t', buildTree scenarioTree [1, 2, 3, 4, 5, 6, 7] = ⟨t', none⟩ ∧
        collect_values t' = .ok [1, 2, 3, 4, 5, 6, 7] :=
  ⟨by decide, by decide, rfl,
    buildTree_collect_values_round_trip 3 scenarioTree [1, 2, 3, 4, 5, 6, 7] (by decide)
      (by decide) rfl⟩

/-! ### The index that `binarySearchHelper` returns -/

theorem binarySearchHelper_found {values : List Int} {value : Int}
    (hs : values.Pairwise (fun a b => a < b)) (hv : value ∈ values) :
    0 ≤ binarySearchHelper values value ∧
      values[(binarySearchHelper values value).toNat]? = some value := by
  obtain ⟨r, hr, h0, h⟩ := binarySearchHelperLoop_spec value hs (values.length + 1) 0
    ((values.length : Int) - 1) (Window.init values value) (by omega)
  have hb : binarySearchHelper values value = r := by simp [binarySearchHelper, hr]
  rw [hb]
  rcases h with h | ⟨hn, _⟩
  · exact ⟨h0, h⟩
  · exact absurd hv hn

theorem sorted_index_unique {values : List Int} (hs : values.Pairwise (fun a b => a < b))
    {i j : Nat} {v : Int} (hi : values[i]? = some v) (hj : values[j]? = some v) : i = j := by
  rcases lt_trichotomy i j with h | h | h
  · exact absurd (sorted_getElem?_lt hs hi hj h) (lt_irrefl _)
  · exact h
  · exact absurd (sorted_getElem?_lt hs hj hi h) (lt_irrefl _)

theorem countP_lt_eq {values : List Int} {value : Int} {r : Nat} (hr : r ≤ values.length)
    (hlo : ∀ (j : Nat) (x : Int), values[j]? = some x → j < r → x < value)
    (hhi : ∀ (j : Nat) (x : Int), values[j]? = some x → r ≤ j → value < x) :
    values.countP (fun x => decide (x < value)) = r := by
  have h1 : (values.take r).countP (fun x => decide (x < value)) = (values.take r).length := by
    rw [List.countP_eq_length]
    intro a ha
    obtain ⟨j, hj⟩ := List.mem_iff_getElem?.1 ha
    rw [List.getElem?_take] at hj
    split at hj
    · simpa using hlo j a hj (by assumption)
    · cases hj
  have h2 : (values.drop r).countP (fun x => decide (x < value)) = 0 := by
    rw [List.countP_eq_zero]
    intro a ha
    obtain ⟨j, hj⟩ := List.mem_iff_getElem?.1 ha
    rw [List.getElem?_drop] at hj
    have := hhi _ a hj (by omega)
    simp only [decide_eq_true_eq]
    omega
  have h3 : values.countP (fun x => decide (x < value)) =
      (values.take r).countP (fun x => decide (x < value)) +
        (values.drop r).countP (fun x => decide (x < value)) := by
    rw [← List.countP_append, List.take_append_drop]
  rw [h3, h1, h2, List.length_take]
  omega

theorem findIdx_gt_eq {values : List Int} {value : Int} {r : Nat} (hr : r ≤ values.length)
    (hlo : ∀ (j : Nat) (x : Int), values[j]? = some x → j < r → x < value)
    (hhi : ∀ (j : Nat) (x : Int), values[j]? = some x → r ≤ j → value < x) :
    values.findIdx (fun x => decide (value < x)) = r := by
  by_cases hlt : r < values.length
  · rw [List.findIdx_eq hlt]
    refine ⟨by simpa using hhi r _ (List.getElem?_eq_getElem hlt) le_rfl, ?_⟩
    intro j hj
    have hjl : j < values.length := by omega
    have := hlo j _ (List.getElem?_eq_getElem hjl) hj
    simp only [decide_eq_false_iff_not]
    omega
  · have hrl : r = values.length := by omega
    rw [hrl, List.findIdx_eq_length]
    intro x hx
    obtain ⟨j, hj⟩ := List.mem_iff_getElem?.1 hx
    obtain ⟨hjl, _⟩ := List.getElem?_eq_some.1 hj
    have := hlo j x hj (by omega)
    simp only [decide_eq_false_iff_not]
    omega

/-- C17: on strictly increasing keys, `binarySearchHelper(v)` returns the index of `v` when
`v` occurs (the index `binarySearch(v)` returns; `binarySearch` returns `-1` exactly when `v`
is absent), and otherwise the number of keys smaller than `v`, which is the index of the
first key greater than `v`, or the number of keys if there is none. -/
theorem binarySearchHelper_index (values : List Int) (v : Int)
    (hs : values.Pairwise (fun a b => a < b)) :
    (v ∈ values →
      0 ≤ binarySearchHelper values v ∧
      values[(binarySearchHelper values v).toNat]? = some v ∧
      binarySearch values v = binarySearchHelper values v) ∧
    (binarySearch values v = -1 ↔ v ∉ values) ∧
    (v ∉ values →
      binarySearchHelper values v = ((values.countP (fun x => decide (x < v)) : Nat) : Int) ∧
      binarySearchHelper values v = ((values.findIdx (fun x => decide (v < x)) : Nat) : Int)) := by
  refine ⟨fun hv => ?_, ?_, fun hv => ?_⟩
  · obtain ⟨h0, hi⟩ := binarySearchHelper_found hs hv
    refine ⟨h0, hi, ?_⟩
    rcases binarySearch_spec v hs with ⟨b0, bi⟩ | ⟨_, hn⟩
    · have := sorted_index_unique hs bi hi
      omega
    · exact absurd hv hn
  · rcases binarySearch_spec v hs with ⟨b0, bi⟩ | ⟨b1, hn⟩
    · constructor
      · intro h
        omega
      · intro hn
        exact absurd (List.mem_iff_getElem?.2 ⟨_, bi⟩) hn
    · exact ⟨fun _ => hn, fun _ => b1⟩
  · obtain ⟨h0, h1, hlo, hhi⟩ := binarySearchHelper_spec hs hv
    have hr : (binarySearchHelper values v).toNat ≤ values.length := by omega
    have hlo' : ∀ (j : Nat) (x : Int), values[j]? = some x →
        j < (binarySearchHelper values v).toNat → x < v :=
      fun j x hx hj => hlo j x hx (by omega)
    have hhi' : ∀ (j : Nat) (x : Int), values[j]? = some x →
        (binarySearchHelper values v).toNat ≤ j → v < x :=
      fun j x hx hj => hhi j x hx (by omega)
    rw [countP_lt_eq hr hlo' hhi', findIdx_gt_eq hr hlo' hhi']
    omega

theorem binarySearchHelper_index_witness :
    ([10, 20, 30] : List Int).Pairwise (fun a b => a < b) ∧
    (((20 : Int) ∈ ([10, 20, 30] : List Int) →
      0 ≤ binarySearchHelper [10, 20, 30] 20 ∧
      ([10, 20, 30] : List Int)[(binarySearchHelper [10, 20, 30] 20).toNat]? = some 20 ∧
      binarySearch [10, 20, 30] 20 = binarySearchHelper [10, 20, 30] 20) ∧
    (binarySearch [10, 20, 30] 20 = -1 ↔ (20 : Int) ∉ ([10, 20, 30] : List Int)) ∧
    ((20 : Int) ∉ ([10, 20, 30] : List Int) →
      binarySearchHelper [10, 20, 30] 20 =
        ((([10, 20, 30] : List Int).countP (fun x => decide (x < 20)) : Nat) : Int) ∧
      binarySearchHelper [10, 20, 30] 20 =
        ((([10, 20, 30] : List Int).findIdx (fun x => decide (20 < x)) : Nat) : Int))) :=
  ⟨by decide, binarySearchHelper_index [10, 20, 30] 20 (by decide)⟩

/-! ### `split_node`, explicitly -/

theorem split_node_eq {M : Int} {values : List Int} {children : List MTree} {x : Int}
    (hx : values[values.length / 2]? = some x)
    (hshape : children = [] ∨ children.length = values.length + 1) :
    split_node (node M values children) =
      ⟨node M [x]
        [node M (values.take (values.length / 2)) (children.take (values.length / 2 + 1)),
         node M (values.drop (values.length / 2 + 1)) (children.drop (values.length / 2 + 1))],
        none⟩ := by
  rcases hshape with rfl | hlen
  · simp [split_node, hx]
  · obtain ⟨hmid, _⟩ := List.getElem?_eq_some.1 hx
    have hle : values.length / 2 + 1 ≤ children.length := by omega
    simp [split_node, hx, isEmpty_false_of_length hlen, hle]

theorem inOrderLoop_split : ∀ (mid : Nat) {values : List Int} {children : List MTree} {x : Int}
    (r : List Int), children.length = values.length + 1 → values[mid]? = some x →
    inOrderLoop values children r =
      match inOrderLoop (values.take mid) (children.take (mid + 1)) r with
      | .error e => .error e
      | .ok r1 => inOrderLoop (values.drop (mid + 1)) (children.drop (mid + 1)) (r1 ++ [x])
  | _, [], _, _, _, _, hx => by simp at hx
  | _, _ :: _, [], _, _, h, _ => by simp at h
  | 0, v :: vs, c :: cs, x, r, _, hx => by
    simp at hx
    subst hx
    simp only [List.take_zero, List.take_succ_cons, List.drop_succ_cons, List.drop_zero,
      inOrderLoop]
  | mid + 1, v :: vs, c :: cs, x, r, h, hx => by
    simp only [List.take_succ_cons, List.drop_succ_cons, inOrderLoop]
    cases hc : inOrderTraversal c r with
    | error e => rfl
    | ok r' =>
      exact @inOrderLoop_split mid vs cs x (r' ++ [v]) (by simpa using h) (by simpa using hx)

theorem inOrderTraversal_internal {M : Int} {values : List Int} {children : List MTree}
    (h : children ≠ []) (r : List Int) :
    inOrderTraversal (node M values children) r = inOrderLoop values children r := by
  cases children with
  | nil => exact absurd rfl h
  | cons c cs => simp [inOrderTraversal]

theorem inOrderTraversal_pair (M x : Int) (l r0 : MTree) (r : List Int) :
    inOrderTraversal (node M [x] [l, r0]) r =
      match inOrderTraversal l r with
      | .error e => .error e
      | .ok r1 => inOrderTraversal r0 (r1 ++ [x]) := by
  simp only [inOrderTraversal, inOrderLoop]

/-- C14: `split_node()` on a node with at least one key that is a leaf or has one more child
than keys leaves exactly one key, the former `keys[n/2]`, and two children: the left one
with the former keys `[0, n/2)` and children `[0, n/2]`, the right one with the former keys
`(n/2, n)` and children `(n/2, n]`; `collect_values()` of the node is unchanged. That the
keys increase is not needed. -/
theorem split_node_result (M : Int) (values : List Int) (children : List MTree)
    (hne : values ≠ []) (hshape : children = [] ∨ children.length = values.length + 1) :
    ∃ x, values[values.length / 2]? = some x ∧
      split_node (node M values children) =
        ⟨node M [x]
          [node M (values.take (values.length / 2)) (children.take (values.length / 2 + 1)),
           node M (values.drop (values.length / 2 + 1))
             (children.drop (values.length / 2 + 1))],
          none⟩ ∧
      collect_values (split_node (node M values children)).tree =
        collect_values (node M values children) := by
  have hpos : 0 < values.length := List.length_pos.2 hne
  have hmid : values.length / 2 < values.length := by omega
  have hx : values[values.length / 2]? = some values[values.length / 2] :=
    List.getElem?_eq_getElem hmid
  refine ⟨_, hx, split_node_eq hx hshape, ?_⟩
  rw [split_node_eq hx hshape]
  simp only [collect_values]
  rw [inOrderTraversal_pair]
  rcases hshape with rfl | hlen
  · simp only [List.take_nil, List.drop_nil, inOrderTraversal, List.nil_append]
    congr 1
    rw [List.append_assoc, List.singleton_append, ← List.drop_eq_getElem_cons hmid,
      List.take_append_drop]
  · have h1 : children ≠ [] := by
      intro h
      simp [h] at hlen
    have h2 : children.take (values.length / 2 + 1) ≠ [] := by
      intro h
      have := congrArg List.length h
      simp only [List.length_take, List.length_nil] at this
      omega
    have h3 : children.drop (values.length / 2 + 1) ≠ [] := by
      intro h
      have := congrArg List.length h
      simp only [List.length_drop, List.length_nil] at this
      omega
    rw [inOrderTraversal_internal h1, inOrderLoop_split (values.length / 2) [] hlen hx,
      inOrderTraversal_internal h2]
    cases inOrderLoop (values.take (values.length / 2))
        (children.take (values.length / 2 + 1)) [] with
    | error e => rfl
    | ok r1 => exact inOrderTraversal_internal h3 _

theorem split_node_result_witness :
    ([1, 2, 3] : List Int) ≠ [] ∧
    (([] : List MTree) = [] ∨ ([] : List MTree).length = ([1, 2, 3] : List Int).length + 1) ∧
    ∃ x, ([1, 2, 3] : List Int)[([1, 2, 3] : List Int).length / 2]? = some x ∧
      split_node (node 3 [1, 2, 3] []) =
        ⟨node 3 [x]
          [node 3 (([1, 2, 3] : List Int).take (([1, 2, 3] : List Int).length / 2))
             (([] : List MTree).take (([1, 2, 3] : List Int).length / 2 + 1)),
           node 3 (([1, 2, 3] : List Int).drop (([1, 2, 3] : List Int).length / 2 + 1))
             (([] : List MTree).drop (([1, 2, 3] : List Int).length / 2 + 1))],
          none⟩ ∧
      collect_values (split_node (node 3 [1, 2, 3] [])).tree =
        collect_values (node 3 [1, 2, 3] []) :=
  ⟨by decide, Or.inl rfl, split_node_result 3 [1, 2, 3] [] (by decide) (Or.inl rfl)⟩

/-! ### What `findMin` and `findMax` return -/

theorem weave_cons_eq (values : List Int) (c : MTree) (cs : List MTree) :
    ∃ B, weave values (c :: cs) = flat c ++ B := by
  cases values with
  | nil => exact ⟨[], by simp [weave]⟩
  | cons v vs => exact ⟨v :: weave vs cs, by simp [weave]⟩

theorem findMin_head : ∀ t m, findMin t = .ok m → ∃ rest, flat t = m :: rest := by
  intro t
  induction t using induct with
  | h M values children ih =>
    intro m hm
    cases children with
    | nil =>
      cases values with
      | nil => simp [findMin] at hm
      | cons v vs =>
        simp only [findMin] at hm
        cases hm
        exact ⟨vs, by simp [flat]⟩
    | cons c cs =>
      simp only [findMin] at hm
      obtain ⟨rest, hrest⟩ := ih c (List.mem_cons_self _ _) m hm
      obtain ⟨B, hB⟩ := weave_cons_eq values c cs
      exact ⟨rest ++ B, by simp [flat, hB, hrest]⟩

theorem weave_last : ∀ {values : List Int} {children : List MTree} {c : MTree},
    children.length = values.length + 1 → children[values.length]? = some c →
    ∃ A, weave values children = A ++ flat c
  | [], [], _, h, _ => by simp at h
  | [], [d], c, _, hc => by
    simp at hc
    subst hc
    exact ⟨[], by simp [weave]⟩
  | [], _ :: _ :: _, _, h, _ => by simp at h
  | v :: vs, [], _, h, _ => by simp at h
  | v :: vs, d :: cs, c, h, hc => by
    obtain ⟨A, hA⟩ := @weave_last vs cs c (by simpa using h) (by simpa using hc)
    exact ⟨flat d ++ v :: A, by simp [weave, hA]⟩

theorem findMax_last (M : Int) : ∀ t, wellFormed M t = true →
    ∀ m, findMax t = .ok m → ∃ init, flat t = init ++ [m] := by
  intro t
  induction t using induct with
  | h M' values children ih =>
    intro hwf m hm
    obtain ⟨_, _, hshape, _, hch⟩ := wellFormed_node.1 hwf
    rcases hshape with rfl | hlen
    · simp only [findMax] at hm
      split at hm
      · cases hm
      · rename_i v hv
        cases hm
        obtain ⟨ys, hys⟩ := List.getLast?_eq_some_iff.1 hv
        exact ⟨ys, by simp [flat, hys]⟩
    · have hne : children ≠ [] := by
        intro h
        simp [h] at hlen
      obtain ⟨c, hc, hcm⟩ := last_child hne
      have hcl : children.length - 1 = values.length := by omega
      rw [hcl] at hc
      rw [findMax_internal (by omega) hc] at hm
      obtain ⟨init, hinit⟩ := ih c hcm (hch c hcm) m hm
      obtain ⟨A, hA⟩ := weave_last hlen hc
      exact ⟨A ++ init, by rw [flat_internal M' values hne, hA, hinit, List.append_assoc]⟩

/-- C11: on a well-formed tree, a value returned by `findMin()` is the first element of
`collect_values()` and the smallest key, and a value returned by `findMax()` is the last
element of `collect_values()` and the largest key. -/
theorem findMin_findMax_collect_values (M : Int) (t : MTree)
    (hwf : wellFormed M t = true) :
    (∀ m, findMin t = .ok m →
      ∃ xs, collect_values t = .ok xs ∧ xs.head? = some m ∧ ∀ k ∈ xs, m ≤ k) ∧
    (∀ m, findMax t = .ok m →
      ∃ xs, collect_values t = .ok xs ∧ xs.getLast? = some m ∧ ∀ k ∈ xs, k ≤ m) := by
  have hs := flat_sorted hwf
  constructor
  · intro m hm
    obtain ⟨rest, hrest⟩ := findMin_head t m hm
    refine ⟨flat t, collect_values_eq_flat hwf, by simp [hrest], ?_⟩
    intro k hk
    rw [hrest] at hs hk
    rcases List.mem_cons.1 hk with rfl | hk'
    · exact le_refl _
    · exact le_of_lt (List.rel_of_pairwise_cons hs hk')
  · intro m hm
    obtain ⟨init, hinit⟩ := findMax_last M t hwf m hm
    refine ⟨flat t, collect_values_eq_flat hwf, by simp [hinit], ?_⟩
    intro k hk
    rw [hinit] at hs hk
    rcases List.mem_append.1 hk with hk' | hk'
    · exact le_of_lt ((List.pairwise_append.1 hs).2.2 k hk' m (by simp))
    · simp only [List.mem_singleton] at hk'
      exact le_of_eq hk'

theorem findMin_findMax_collect_values_witness :
    wellFormed 3 scenarioTree = true ∧
    (∀ m, findMin scenarioTree = .ok m →
      ∃ xs, collect_values scenarioTree = .ok xs ∧ xs.head? = some m ∧ ∀ k ∈ xs, m ≤ k) ∧
    (∀ m, findMax scenarioTree = .ok m →
      ∃ xs, collect_values scenarioTree = .ok xs ∧ xs.getLast? = some m ∧ ∀ k ∈ xs, k ≤ m) :=
  ⟨by decide, findMin_findMax_collect_values 3 scenarioTree (by decide)⟩

/-- C12, at the failing inputs: the trees left by `buildTree([1,2,3])` with `M = 3` followed
by `remove(1)`, respectively `remove(3)`, are reachable and hold keys, yet `findMin()`,
respectively `findMax()`, raises the structural error: the leftmost, respectively rightmost,
leaf is empty. -/
theorem findMin_findMax_raise_on_reachable :
    (Reachable 3 emptiedLeafTree ∧ collect_values emptiedLeafTree = .ok [2, 3] ∧
      leftmostLeafKeys emptiedLeafTree = [] ∧
      findMin emptiedLeafTree = .error .runtimeError) ∧
    (Reachable 3 emptiedRightLeafTree ∧ collect_values emptiedRightLeafTree = .ok [1, 2] ∧
      rightmostLeafKeys emptiedRightLeafTree = [] ∧
      findMax emptiedRightLeafTree = .error .runtimeError) :=
  ⟨⟨Reachable.remove 1
      (Reachable.buildTree [1, 2, 3] Reachable.fresh (by decide)
        (rfl : buildTree (fresh 3) [1, 2, 3] = ⟨node 3 [2] [node 3 [1] [], node 3 [3] []], none⟩))
      rfl, rfl, rfl, rfl⟩,
    ⟨Reachable.remove 3
      (Reachable.buildTree [1, 2, 3] Reachable.fresh (by decide)
        (rfl : buildTree (fresh 3) [1, 2, 3] = ⟨node 3 [2] [node 3 [1] [], node 3 [3] []], none⟩))
      rfl, rfl, rfl, rfl⟩⟩

/-! ### The compact shape of reachable trees -/

theorem compactAll_iff {M : Int} : ∀ {cs : List MTree},
    compactAll M cs = true ↔ ∀ c ∈ cs, compact M c = true
  | [] => by simp [compactAll]
  | c :: cs => by simp [compactAll, @compactAll_iff M cs]

theorem compact_leaf {M M' : Int} {values : List Int} :
    compact M (node M' values []) = true ↔ (values.length : Int) < M := by
  simp [compact, compactAll]

theorem compact_internal {M M' : Int} {values : List Int} {children : List MTree}
    (h : children ≠ []) :
    compact M (node M' values children) = true ↔
      values.length = 1 ∧ children.length = 2 ∧ ∀ c ∈ children, compact M c = true := by
  have : children.isEmpty = false := by
    cases children with
    | nil => exact absurd rfl h
    | cons c cs => rfl
  simp [compact, compactAll_iff, this, and_assoc]

theorem compact_subtrees (M : Int) : ∀ t, compact M t = true →
    ∀ n ∈ subtrees t, compact M n = true := by
  intro t
  induction t using induct with
  | h M' values children ih =>
    intro hc n hn
    simp only [subtrees, List.mem_cons, mem_subtreesList] at hn
    rcases hn with rfl | ⟨c, hcm, hnc⟩
    · exact hc
    · have hne : children ≠ [] := List.ne_nil_of_mem hcm
      exact ih c hcm (((compact_internal hne).1 hc).2.2 c hcm) n hnc

theorem splitIfFull_compact {M : Int} (hM : 2 ≤ M) {values : List Int}
    (hlen : (values.length : Int) ≤ M) {t' : MTree}
    (h : splitIfFull (node M values []) = ⟨t', none⟩) : compact M t' = true := by
  by_cases hcap : reachedCapacity M values = true
  · have hMl : M ≤ (values.length : Int) := by
      simp [reachedCapacity] at hcap
      exact hcap.2
    have hpos : 0 < values.length := by omega
    have hmid : values.length / 2 < values.length := by omega
    have hx : values[values.length / 2]? = some values[values.length / 2] :=
      List.getElem?_eq_getElem hmid
    simp only [splitIfFull, hcap, if_true] at h
    rw [split_node_eq hx (Or.inl rfl)] at h
    cases h
    rw [compact_internal (by simp)]
    refine ⟨rfl, rfl, ?_⟩
    intro c hc
    simp only [List.take_nil, List.drop_nil, List.mem_cons, List.mem_singleton,
      List.not_mem_nil, or_false] at hc
    rcases hc with rfl | rfl
    · rw [compact_leaf, List.length_take]
      omega
    · rw [compact_leaf, List.length_drop]
      omega
  · simp only [splitIfFull, hcap, Bool.false_eq_true, if_false] at h
    cases h
    rw [compact_leaf]
    simp [reachedCapacity] at hcap
    omega

theorem insertAt_length (values : List Int) (i : Nat) (value : Int) :
    (insertAt values i value).length = values.length + 1 := by
  have := (insertAt_perm values i value).length_eq
  simpa using this

/-- A call of `insertValue` that returns keeps a well-formed compact tree compact. -/
theorem insertValue_compact {M : Int} (hM : 2 ≤ M) : ∀ t, wellFormed M t = true →
    compact M t = true → ∀ value t', insertValue t value = ⟨t', none⟩ →
    compact M t' = true := by
  intro t
  induction t using induct with
  | h M' values children ih =>
    intro hwf hcomp value t' hins
    obtain ⟨hMM, hs, hshape, hb, hch⟩ := wellFormed_node.1 hwf
    subst hMM
    by_cases hv : value ∈ flat (node M' values children)
    · rw [insertValue_of_search ((search_iff M' _ hwf value).2 hv)] at hins
      simp at hins
    · have hsearch : search (node M' values children) value = false := by
        rw [← Bool.not_eq_true, search_iff M' _ hwf]
        exact hv
      by_cases hne : children = []
      · subst hne
        simp only [insertValue, hsearch, Bool.false_eq_true, if_false, List.isEmpty_nil,
          if_true] at hins
        refine splitIfFull_compact hM ?_ hins
        rw [insertAt_length]
        have := compact_leaf.1 hcomp
        push_cast
        omega
      · have hlen : children.length = values.length + 1 := hshape.resolve_left hne
        obtain ⟨h1, h2, hcc⟩ := (compact_internal hne).1 hcomp
        have hvv : value ∉ values := fun h =>
          hv ((mem_flat_iff hwf value).2 (mem_allKeys_node.2 (Or.inl h)))
        obtain ⟨c, hc, hiff⟩ := child_of_key hs hlen ((boundsOK_iff hlen).1 hb) hvv
        have hcm : c ∈ children := List.mem_iff_getElem?.2 ⟨_, hc⟩
        have hnc : value ∉ flat c := by
          intro h
          apply hv
          rw [mem_flat_iff hwf, mem_allKeys_node]
          exact Or.inr ⟨c, hcm, (mem_flat_iff (hch c hcm) value).1 h⟩
        obtain ⟨c', hc', _, _⟩ := insertValue_spec (by omega) c (hch c hcm) value hnc
        have hcap : reachedCapacity M' values = false := by
          simp [reachedCapacity, h1]
          omega
        simp only [insertValue, hsearch, Bool.false_eq_true, if_false,
          isEmpty_false_of_length hlen, insertValueAt_eq hc, hc', splitIfFull, hcap] at hins
        cases hins
        have hne2 : children.set (binarySearchHelper values value).toNat c' ≠ [] := by
          intro h
          have := congrArg List.length h
          simp at this
          exact hne this
        rw [compact_internal hne2]
        refine ⟨h1, by simpa using h2, ?_⟩
        intro d hd
        rcases List.mem_or_eq_of_mem_set hd with h | rfl
        · exact hcc d h
        · exact ih c hcm (hch c hcm) (hcc c hcm) value _ hc'

theorem insertAll_compact {M : Int} (hM : 2 ≤ M) : ∀ (xs : List Int) (t t' : MTree),
    wellFormed M t = true → compact M t = true → (xs ++ flat t).Nodup →
    insertAll t xs = ⟨t', none⟩ → compact M t' = true
  | [], t, t', _, hc, _, h => by
    simp only [insertAll] at h
    cases h
    exact hc
  | x :: xs, t, t', hwf, hc, hnd, h => by
    have hx : x ∉ flat t := fun hm =>
      (List.nodup_cons.1 hnd).1 (List.mem_append_right _ hm)
    obtain ⟨t1, h1, hwf1, hp1⟩ := insertValue_spec (by omega) t hwf x hx
    have hc1 := insertValue_compact hM t hwf hc x t1 h1
    have hperm : (xs ++ flat t1).Perm (x :: xs ++ flat t) :=
      (List.Perm.append_left xs hp1).trans List.perm_middle
    simp only [insertAll, h1] at h
    exact insertAll_compact hM xs t1 t' hwf1 hc1 (hperm.nodup_iff.2 hnd) h

theorem compact_fresh {M : Int} (hM : 2 ≤ M) : compact M (node M [] []) = true := by
  rw [compact_leaf]
  simp
  omega

theorem buildTree_compact {M : Int} (hM : 2 ≤ M) (values : List Int) (children : List MTree)
    {xs : List Int} (hxs : xs.Nodup) {t' : MTree}
    (h : buildTree (node M values children) xs = ⟨t', none⟩) : compact M t' = true :=
  insertAll_compact hM xs (node M [] []) t' (wellFormed_fresh M) (compact_fresh hM)
    (by simpa [flat] using hxs) (by simpa [buildTree] using h)

/-! ### `remove` of a key of the node itself -/

theorem child_index_of_key {values : List Int} {children : List MTree} {value : Int}
    (hs : values.Pairwise (fun a b => a < b)) (hlen : children.length = values.length + 1)
    (hb : Between values children) (hv : value ∉ values)
    {j : Nat} {d : MTree} (hj : children[j]? = some d) (hd : value ∈ allKeys d) :
    j = (binarySearchHelper values value).toNat := by
  obtain ⟨h0, h1, hlo, hhi⟩ := binarySearchHelper_spec hs hv
  obtain ⟨hjl, _⟩ := List.getElem?_eq_some.1 hj
  rcases lt_trichotomy j (binarySearchHelper values value).toNat with hlt | heq | hgt
  · exfalso
    have hjv : j < values.length := by omega
    have h2 := (Between.child hs hlen hb hj hd (List.getElem?_eq_getElem hjv)).2 le_rfl
    have h3 := hlo j _ (List.getElem?_eq_getElem hjv) (by omega)
    omega
  · exact heq
  · exfalso
    have hjv : (binarySearchHelper values value).toNat < values.length := by omega
    have h2 := (Between.child hs hlen hb hj hd (List.getElem?_eq_getElem hjv)).1 hgt
    have h3 := hhi _ _ (List.getElem?_eq_getElem hjv) (by omega)
    omega

theorem own_key_not_in_child {values : List Int} {children : List MTree} {k : Int}
    (hs : values.Pairwise (fun a b => a < b)) (hlen : children.length = values.length + 1)
    (hb : Between values children) (hk : k ∈ values) {d : MTree} (hd : d ∈ children) :
    k ∉ allKeys d := by
  intro hkd
  obtain ⟨i, hi⟩ := List.mem_iff_getElem?.1 hk
  obtain ⟨j, hj⟩ := List.mem_iff_getElem?.1 hd
  have h := Between.child hs hlen hb hj hkd hi
  by_cases hij : i < j
  · exact lt_irrefl _ (h.1 hij)
  · exact lt_irrefl _ (h.2 (by omega))

theorem erase_eq_of_perm {l X : List Int} {k : Int} (hs : l.Pairwise (fun a b => a < b))
    (hp : l.Perm (k :: X)) (hX : X.Pairwise (fun a b => a < b)) : X = l.erase k := by
  have h1 : (l.erase k).Perm X := by simpa using hp.erase k
  exact (eq_of_perm_of_increasing h1 (hs.sublist (List.erase_sublist k l)) hX).symm

theorem rebuild_eq {M : Int} {values : List Int} {children : List MTree}
    (hlen : children.length = values.length + 1)
    (hch : ∀ c ∈ children, wellFormed M c = true) :
    rebuild (node M values children) = buildTree (fresh M) (weave values children) := by
  have hne : children ≠ [] := by
    intro h
    simp [h] at hlen
  have hcol : collect_values (node M values children) = .ok (weave values children) := by
    have := inOrderTraversal_node (M := M) (Or.inr hlen)
      (fun c hc => inOrderTraversal_eq M c (hch c hc)) []
    simpa [collect_values, flat_internal M values hne] using this
  simp [rebuild, hcol, buildTree, fresh]

/-- Removing a key that the internal node itself holds: the replacement comes from
`findMin` of the right neighbour when the key is not the last one and from `findMax` of the
left neighbour when it is; when that call raises, `remove` raises with the tree untouched,
and otherwise the node is rebuilt from the remaining keys. -/
theorem remove_own_key {M : Int} (hM : 1 ≤ M) {values : List Int} {children : List MTree}
    {k : Int} (hwf : wellFormed M (node M values children) = true)
    (hlen : children.length = values.length + 1) (hk : k ∈ values) :
    ∃ i c, values[i]? = some k ∧
      ((i + 1 < values.length ∧ children[i + 1]? = some c ∧
          (((∃ e, findMin c = .error e) ∧
              remove (node M values children) k = ⟨node M values children, some .runtimeError⟩) ∨
            ((∃ m, findMin c = .ok m) ∧
              remove (node M values children) k =
                buildTree (fresh M) ((flat (node M values children)).erase k)))) ∨
        (i + 1 = values.length ∧ children[i]? = some c ∧
          (((∃ e, findMax c = .error e) ∧
              remove (node M values children) k = ⟨node M values children, some .runtimeError⟩) ∨
            ((∃ m, findMax c = .ok m) ∧
              remove (node M values children) k =
                buildTree (fresh M) ((flat (node M values children)).erase k))))) := by
  obtain ⟨_, hs, _, hb, hch⟩ := wellFormed_node.1 hwf
  have hsearch : search (node M values children) k = true :=
    search_of_mem_allKeys hwf (mem_allKeys_node.2 (Or.inl hk))
  have hne := isEmpty_false_of_length hlen
  have hne' : children ≠ [] := by
    intro h
    simp [h] at hlen
  have hsorted := flat_sorted hwf
  rw [flat_internal M values hne'] at hsorted
  rcases binarySearch_spec k hs with ⟨h0, hi⟩ | ⟨_, hn⟩
  swap
  · exact absurd hk hn
  obtain ⟨hil, _⟩ := List.getElem?_eq_some.1 hi
  obtain ⟨A, B, cl, cr, hcl, hcr, hw, hwl, hwr⟩ := weave_zip_value _ hlen hi
  have hclm : cl ∈ children := List.mem_iff_getElem?.2 ⟨_, hcl⟩
  have hcrm : cr ∈ children := List.mem_iff_getElem?.2 ⟨_, hcr⟩
  rw [hw] at hsorted
  by_cases hlt : binarySearch values k < (values.length : Int) - 1
  · have hidx : (binarySearch values k + 1).toNat = (binarySearch values k).toNat + 1 := by
      omega
    have hc : children[(binarySearch values k + 1).toNat]? = some cr := by
      rw [hidx]
      exact hcr
    refine ⟨_, cr, hi, Or.inl ⟨by omega, hcr, ?_⟩⟩
    cases hmin : findMin cr with
    | error e =>
      left
      refine ⟨⟨e, rfl⟩, ?_⟩
      rw [remove_min_error hsearch hne h0 hlt hc hmin, findMin_error _ _ hmin]
    | ok m =>
      right
      refine ⟨⟨m, rfl⟩, ?_⟩
      have hmem : m ∈ flat cr := (mem_flat_iff (hch cr hcrm) m).2 (findMin_mem _ _ hmin)
      have hnone := remove_findMin M cr (hch cr hcrm) m hmin
      rcases remove_spec hM cr (hch cr hcrm) m hmem with hrt | ⟨c', hrem, hwfc', hperm⟩
      · rw [hrt] at hnone
        cases hnone
      · obtain ⟨rest, hrest⟩ := findMin_head cr m hmin
        have hcrs := flat_sorted (hch cr hcrm)
        rw [hrest] at hperm hcrs
        have hrc : rest = flat c' :=
          eq_of_perm_of_increasing (List.Perm.cons_inv hperm) (List.Pairwise.of_cons hcrs)
            (flat_sorted hwfc')
        rw [remove_min_ok hsearch hne h0 hlt hc hmin hrem, hidx,
          rebuild_eq (by simpa using hlen) (fun d hd => by
            rcases List.mem_or_eq_of_mem_set hd with h | rfl
            · exact hch d h
            · exact hwfc')]
        congr 1
        rw [flat_internal M values hne', hw, hwr m c', ← hrc, ← hrest]
        refine erase_eq_of_perm hsorted ?_
          (hsorted.sublist (((List.Sublist.refl _).append (List.sublist_cons_self k _)).append
            (List.Sublist.refl B)))
        rw [List.perm_iff_count]
        intro a
        simp only [List.count_append, List.count_cons]
        omega
  · have hc : children[(binarySearch values k).toNat]? = some cl := hcl
    refine ⟨_, cl, hi, Or.inr ⟨by omega, hcl, ?_⟩⟩
    cases hmax : findMax cl with
    | error e =>
      left
      refine ⟨⟨e, rfl⟩, ?_⟩
      rw [remove_max_error hsearch hne h0 hlt hc hmax, findMax_error _ _ hmax]
    | ok m =>
      right
      refine ⟨⟨m, rfl⟩, ?_⟩
      have hmem : m ∈ flat cl := (mem_flat_iff (hch cl hclm) m).2 (findMax_mem _ _ hmax)
      have hnone := remove_findMax M cl (hch cl hclm) m hmax
      rcases remove_spec hM cl (hch cl hclm) m hmem with hrt | ⟨c', hrem, hwfc', hperm⟩
      · rw [hrt] at hnone
        cases hnone
      · obtain ⟨init, hinit⟩ := findMax_last M cl (hch cl hclm) m hmax
        have hcls := flat_sorted (hch cl hclm)
        rw [hinit] at hperm hcls
        have hic : init = flat c' :=
          eq_of_perm_of_increasing
            (List.Perm.cons_inv ((List.perm_append_singleton m init).symm.trans hperm))
            (List.pairwise_append.1 hcls).1 (flat_sorted hwfc')
        rw [remove_max_ok hsearch hne h0 hlt hc hmax hrem,
          rebuild_eq (by simpa using hlen) (fun d hd => by
            rcases List.mem_or_eq_of_mem_set hd with h | rfl
            · exact hch d h
            · exact hwfc')]
        congr 1
        rw [flat_internal M values hne', hw, hwl m c', ← hic]
        rw [hinit] at hsorted
        have hX : A ++ init ++ m :: flat cr ++ B = A ++ (init ++ [m]) ++ flat cr ++ B := by
          simp
        rw [hX, hinit]
        refine erase_eq_of_perm hsorted ?_
          (hsorted.sublist (((List.Sublist.refl _).append (List.sublist_cons_self k _)).append
            (List.Sublist.refl B)))
        rw [List.perm_iff_count]
        intro a
        simp only [List.count_append, List.count_cons]
        omega

theorem res_eta (r : Res) : r = ⟨r.tree, r.raised⟩ := by
  cases r
  rfl

/-- A call of `remove` that returns keeps a well-formed compact tree compact. -/
theorem remove_compact {M : Int} (hM : 2 ≤ M) : ∀ t, wellFormed M t = true →
    compact M t = true → ∀ k t', remove t k = ⟨t', none⟩ → compact M t' = true := by
  intro t
  induction t using induct with
  | h M' values children ih =>
    intro hwf hcomp k t' hrem
    obtain ⟨hMM, hs, hshape, hb, hch⟩ := wellFormed_node.1 hwf
    subst hMM
    by_cases hv : k ∈ flat (node M' values children)
    swap
    · have hsn : search (node M' values children) k = false := by
        rw [← Bool.not_eq_true, search_iff M' _ hwf]
        exact hv
      rw [remove_of_not_search hsn] at hrem
      simp at hrem
    have hsearch : search (node M' values children) k = true := (search_iff M' _ hwf k).2 hv
    by_cases hne : children = []
    · subst hne
      have hvm : k ∈ values := by simpa [flat_leaf] using hv
      rcases binarySearch_spec k hs with ⟨h0, hi⟩ | ⟨_, hn⟩
      · rw [remove_leaf_found hsearch h0 hi] at hrem
        cases hrem
        rw [compact_leaf]
        have h1 := compact_leaf.1 hcomp
        have h2 := (List.eraseIdx_sublist values (binarySearch values k).toNat).length_le
        omega
      · exact absurd hvm hn
    · have hlen : children.length = values.length + 1 := hshape.resolve_left hne
      obtain ⟨h1, h2, hcc⟩ := (compact_internal hne).1 hcomp
      by_cases hvm : k ∈ values
      · obtain ⟨i, c, _, hcase⟩ := remove_own_key (by omega) hwf hlen hvm
        have hb : remove (node M' values children) k =
            buildTree (fresh M') ((flat (node M' values children)).erase k) := by
          rcases hcase with ⟨_, _, ⟨_, h⟩ | ⟨_, h⟩⟩ | ⟨_, _, ⟨_, h⟩ | ⟨_, h⟩⟩
          · rw [h] at hrem
            simp at hrem
          · exact h
          · rw [h] at hrem
            simp at hrem
          · exact h
        rw [hb] at hrem
        exact buildTree_compact hM [] []
          (nodup_of_increasing ((flat_sorted hwf).sublist (List.erase_sublist _ _))) hrem
      · have hneg : ¬ 0 ≤ binarySearch values k := fun h =>
          hvm ((binarySearch_nonneg_iff k hs).1 h)
        obtain ⟨c, hc, _⟩ := child_of_key hs hlen ((boundsOK_iff hlen).1 hb) hvm
        have hcm : c ∈ children := List.mem_iff_getElem?.2 ⟨_, hc⟩
        rw [remove_descend hsearch (isEmpty_false_of_length hlen) hneg hc] at hrem
        have htree := congrArg Res.tree hrem
        have hraised := congrArg Res.raised hrem
        simp only at htree hraised
        subst htree
        have hcr : remove c k = ⟨(remove c k).tree, none⟩ := by
          rw [← hraised]
        have hne2 : children.set (binarySearchHelper values k).toNat (remove c k).tree ≠ [] := by
          intro h
          have := congrArg List.length h
          simp at this
          exact hne this
        rw [compact_internal hne2]
        refine ⟨h1, by simpa using h2, ?_⟩
        intro d hd
        rcases List.mem_or_eq_of_mem_set hd with h | rfl
        · exact hcc d h
        · exact ih c hcm (hch c hcm) (hcc c hcm) k _ hcr

theorem reachable_compact {M : Int} (hM : 2 ≤ M) {t : MTree} (hr : Reachable M t) :
    compact M t = true := by
  induction hr with
  | fresh => exact compact_fresh hM
  | insertValue value hr' heq ih =>
    exact insertValue_compact hM _ (reachable_wellFormed (by omega) hr') ih value _ heq
  | remove value hr' heq ih =>
    exact remove_compact hM _ (reachable_wellFormed (by omega) hr') ih value _ heq
  | buildTree inputValues hr' hnd heq ih =>
    obtain ⟨values, children, rfl⟩ := wellFormed_order (reachable_wellFormed (by omega) hr')
    exact buildTree_compact hM values children hnd heq

/-- C13: in every tree reachable from a fresh `MTree(M)`, `M ≥ 2`, by calls of
`insertValue`, `remove` and `buildTree` that returned, every node holds at most `M - 1`
keys. -/
theorem reachable_node_capacity (M : Int) (t : MTree) (hM : 2 ≤ M) (hr : Reachable M t) :
    ∀ M' values children, node M' values children ∈ subtrees t →
      (values.length : Int) ≤ M - 1 := by
  intro M' values children hn
  have hc := compact_subtrees M t (reachable_compact hM hr) _ hn
  by_cases hne : children = []
  · subst hne
    have := compact_leaf.1 hc
    omega
  · obtain ⟨h1, _, _⟩ := (compact_internal hne).1 hc
    omega

theorem reachable_node_capacity_witness :
    (2 : Int) ≤ 3 ∧ Reachable 3 scenarioTree ∧
      ∀ M' values children, node M' values children ∈ subtrees scenarioTree →
        (values.length : Int) ≤ 3 - 1 :=
  ⟨by decide,
    Reachable.buildTree [1, 2, 3, 4, 5, 6, 7] Reachable.fresh (by decide) rfl,
    reachable_node_capacity 3 scenarioTree (by decide)
      (Reachable.buildTree [1, 2, 3, 4, 5, 6, 7] Reachable.fresh (by decide) rfl)⟩

/-- C18: in every tree reachable from a fresh `MTree(M)`, `M ≥ 2`, every internal node
holds exactly one key and exactly two children, so only leaves hold more than one key; at
such a node the test `index < values.size() - 1` of `remove` fails for every key, so the
replacement is never the minimum of the right neighbour. -/
theorem reachable_internal_nodes_binary (M : Int) (t : MTree) (hM : 2 ≤ M)
    (hr : Reachable M t) :
    ∀ M' values children, node M' values children ∈ subtrees t → children ≠ [] →
      values.length = 1 ∧ children.length = 2 ∧
      ∀ v, ¬ (0 ≤ binarySearch values v ∧
        binarySearch values v < (values.length : Int) - 1) := by
  intro M' values children hn hne
  have hc := compact_subtrees M t (reachable_compact hM hr) _ hn
  obtain ⟨h1, h2, _⟩ := (compact_internal hne).1 hc
  refine ⟨h1, h2, ?_⟩
  intro v hv
  omega

theorem reachable_internal_nodes_binary_witness :
    (2 : Int) ≤ 3 ∧ Reachable 3 scenarioTree ∧
      ∀ M' values children, node M' values children ∈ subtrees scenarioTree → children ≠ [] →
        values.length = 1 ∧ children.length = 2 ∧
        ∀ v, ¬ (0 ≤ binarySearch values v ∧
          binarySearch values v < (values.length : Int) - 1) :=
  ⟨by decide,
    Reachable.buildTree [1, 2, 3, 4, 5, 6, 7] Reachable.fresh (by decide) rfl,
    reachable_internal_nodes_binary 3 scenarioTree (by decide)
      (Reachable.buildTree [1, 2, 3, 4, 5, 6, 7] Reachable.fresh (by decide) rfl)⟩

/-- C15: on a well-formed tree with `M ≥ 2` whose root is internal and holds `k` among its
own keys, a call `remove(k)` that returns leaves exactly the tree that `buildTree` makes on
a fresh `MTree(M)` from the previous `collect_values()` without `k`. -/
theorem remove_internal_key_rebuilds (M M' : Int) (values : List Int)
    (children : List MTree) (k : Int) (xs : List Int) (t' : MTree) (hM : 2 ≤ M)
    (hwf : wellFormed M (node M' values children) = true) (hint : children ≠ [])
    (hk : k ∈ values) (hxs : collect_values (node M' values children) = .ok xs)
    (hrem : remove (node M' values children) k = ⟨t', none⟩) :
    rebuiltWithout M xs k = ⟨t', none⟩ := by
  have hx := collect_values_inj hwf hxs
  subst hx
  obtain ⟨hMM, _, hshape, _, _⟩ := wellFormed_node.1 hwf
  subst hMM
  obtain ⟨i, c, _, hcase⟩ := remove_own_key (by omega) hwf (hshape.resolve_left hint) hk
  unfold rebuiltWithout
  rcases hcase with ⟨_, _, ⟨_, h⟩ | ⟨_, h⟩⟩ | ⟨_, _, ⟨_, h⟩ | ⟨_, h⟩⟩
  · rw [h] at hrem
    simp at hrem
  · rw [← h, hrem]
  · rw [h] at hrem
    simp at hrem
  · rw [← h, hrem]

theorem remove_internal_key_rebuilds_witness :
    (2 : Int) ≤ 3 ∧ wellFormed 3 scenarioTree = true ∧
      [node 3 [1] [], node 3 [4] [node 3 [3] [], node 3 [6] [node 3 [5] [], node 3 [7] []]]]
        ≠ [] ∧
      (2 : Int) ∈ ([2] : List Int) ∧
      collect_values scenarioTree = .ok [1, 2, 3, 4, 5, 6, 7] ∧
      remove scenarioTree 2 =
        ⟨node 3 [3] [node 3 [1] [], node 3 [5] [node 3 [4] [], node 3 [6, 7] []]], none⟩ ∧
      rebuiltWithout 3 [1, 2, 3, 4, 5, 6, 7] 2 =
        ⟨node 3 [3] [node 3 [1] [], node 3 [5] [node 3 [4] [], node 3 [6, 7] []]], none⟩ :=
  ⟨by decide, by decide, by simp, by decide, rfl, rfl,
    remove_internal_key_rebuilds 3 3 [2]
      [node 3 [1] [], node 3 [4] [node 3 [3] [], node 3 [6] [node 3 [5] [], node 3 [7] []]]]
      2 [1, 2, 3, 4, 5, 6, 7] _ (by decide) (by decide) (by simp) (by decide) rfl rfl⟩

/-! ### Removal from a leaf -/

theorem mem_leafKeysList {k : Int} : ∀ {cs : List MTree},
    k ∈ leafKeysList cs ↔ ∃ c ∈ cs, k ∈ leafKeys c
  | [] => by simp [leafKeysList]
  | c :: cs => by simp [leafKeysList, @mem_leafKeysList k cs]

theorem leafKeys_internal {M : Int} {values : List Int} {children : List MTree}
    (h : children ≠ []) : leafKeys (node M values children) = leafKeysList children := by
  cases children with
  | nil => exact absurd rfl h
  | cons c cs => simp [leafKeys]

theorem leafKeys_subset_allKeys : ∀ t k, k ∈ leafKeys t → k ∈ allKeys t := by
  intro t
  induction t using induct with
  | h M values children ih =>
    intro k hk
    by_cases hne : children = []
    · subst hne
      simp only [leafKeys] at hk
      exact mem_allKeys_node.2 (Or.inl hk)
    · rw [leafKeys_internal hne, mem_leafKeysList] at hk
      obtain ⟨c, hc, hkc⟩ := hk
      exact mem_allKeys_node.2 (Or.inr ⟨c, hc, ih c hc k hkc⟩)

theorem eraseInLeafList_eq_map (k : Int) : ∀ cs : List MTree,
    eraseInLeafList cs k = cs.map (fun c => eraseInLeaf c k)
  | [] => by simp [eraseInLeafList]
  | c :: cs => by simp [eraseInLeafList, eraseInLeafList_eq_map k cs]

theorem eraseInLeaf_internal {M : Int} {values : List Int} {children : List MTree} (k : Int)
    (h : children ≠ []) :
    eraseInLeaf (node M values children) k =
      node M values (children.map (fun c => eraseInLeaf c k)) := by
  cases children with
  | nil => exact absurd rfl h
  | cons c cs => simp [eraseInLeaf, eraseInLeafList_eq_map]

theorem eraseInLeaf_of_not_mem : ∀ t k, k ∉ allKeys t → eraseInLeaf t k = t := by
  intro t
  induction t using induct with
  | h M values children ih =>
    intro k hk
    rw [mem_allKeys_node] at hk
    by_cases hne : children = []
    · subst hne
      simp only [eraseInLeaf]
      rw [List.erase_of_not_mem (fun h => hk (Or.inl h))]
    · rw [eraseInLeaf_internal k hne]
      congr 1
      conv_rhs => rw [← List.map_id children]
      apply List.map_congr_left
      intro c hc
      exact ih c hc k (fun h => hk (Or.inr ⟨c, hc, h⟩))

theorem eraseIdx_eq_erase {values : List Int} (hs : values.Pairwise (fun a b => a < b))
    {i : Nat} {k : Int} (hi : values[i]? = some k) : values.eraseIdx i = values.erase k :=
  erase_eq_of_perm hs (perm_cons_eraseIdx hi) (hs.sublist (List.eraseIdx_sublist _ _))

/-- C16: on a well-formed tree, `remove(k)` of a key stored in a leaf returns normally and
leaves the original tree with `k` erased from that leaf's key list: the keys of every other
node and the whole child structure are unchanged (an emptied leaf stays in place). -/
theorem remove_leaf_key (M : Int) (t : MTree) (k : Int) (hwf : wellFormed M t = true)
    (hk : k ∈ leafKeys t) : remove t k = ⟨eraseInLeaf t k, none⟩ := by
  induction t using induct with
  | h M' values children ih =>
    obtain ⟨_, hs, hshape, hb, hch⟩ := wellFormed_node.1 hwf
    have hsearch := search_of_mem_allKeys hwf (leafKeys_subset_allKeys _ k hk)
    by_cases hne : children = []
    · subst hne
      simp only [leafKeys] at hk
      rcases binarySearch_spec k hs with ⟨h0, hi⟩ | ⟨_, hn⟩
      · rw [remove_leaf_found hsearch h0 hi, eraseIdx_eq_erase hs hi]
        simp [eraseInLeaf]
      · exact absurd hk hn
    · have hlen : children.length = values.length + 1 := hshape.resolve_left hne
      have hB := (boundsOK_iff hlen).1 hb
      rw [leafKeys_internal hne, mem_leafKeysList] at hk
      obtain ⟨d, hd, hkd⟩ := hk
      have hkd' := leafKeys_subset_allKeys d k hkd
      have hvm : k ∉ values := fun h => own_key_not_in_child hs hlen hB h hd hkd'
      have hneg : ¬ 0 ≤ binarySearch values k := fun h =>
        hvm ((binarySearch_nonneg_iff k hs).1 h)
      obtain ⟨j, hj⟩ := List.mem_iff_getElem?.1 hd
      have hji := child_index_of_key hs hlen hB hvm hj hkd'
      subst hji
      rw [remove_descend hsearch (isEmpty_false_of_length hlen) hneg hj,
        ih d hd (hch d hd) hkd, eraseInLeaf_internal k hne]
      congr 2
      apply List.ext_getElem?
      intro n
      rw [List.getElem?_set, List.getElem?_map]
      split
      · rename_i hin
        subst hin
        simp [hj, (List.getElem?_eq_some.1 hj).1]
      · rename_i hin
        cases hn : children[n]? with
        | none => rfl
        | some e =>
          simp only [Option.map_some']
          by_cases hke : k ∈ allKeys e
          · exact absurd (child_index_of_key hs hlen hB hvm hn hke).symm hin
          · rw [eraseInLeaf_of_not_mem e k hke]

theorem remove_leaf_key_witness :
    wellFormed 3 scenarioTree = true ∧ (7 : Int) ∈ leafKeys scenarioTree ∧
      remove scenarioTree 7 = ⟨eraseInLeaf scenarioTree 7, none⟩ :=
  ⟨by decide, by decide, remove_leaf_key 3 scenarioTree 7 (by decide) (by decide)⟩

/-! ### When `remove` raises the structural error -/

theorem rightmostLeafKeysBack_eq : ∀ {cs : List MTree} {i : Nat} {c : MTree},
    i + 1 = cs.length → cs[i]? = some c → rightmostLeafKeysBack cs = rightmostLeafKeys c
  | [], _, _, h, _ => by simp at h
  | [d], 0, c, _, hc => by
    simp at hc
    simp [rightmostLeafKeysBack, hc]
  | [d], i + 1, c, h, _ => by simp at h
  | d :: d' :: cs, 0, c, h, _ => by simp at h
  | d :: d' :: cs, i + 1, c, h, hc => by
    have ih := @rightmostLeafKeysBack_eq (d' :: cs) i c (by simpa using h) (by simpa using hc)
    simpa [rightmostLeafKeysBack] using ih

theorem rightmostLeafKeys_internal {M : Int} {values : List Int} {children : List MTree}
    {c : MTree} {i : Nat} (hi : i + 1 = children.length) (hc : children[i]? = some c) :
    rightmostLeafKeys (node M values children) = rightmostLeafKeys c := by
  cases children with
  | nil => simp at hi
  | cons d ds =>
    simp only [rightmostLeafKeys]
    exact rightmostLeafKeysBack_eq hi hc

/-- The call `findMax` raises exactly when the rightmost leaf holds no keys. -/
theorem findMax_error_iff : ∀ t, (∃ e, findMax t = .error e) ↔ rightmostLeafKeys t = [] := by
  intro t
  induction t using induct with
  | h M values children ih =>
    by_cases hne : children = []
    · subst hne
      simp only [findMax, rightmostLeafKeys]
      cases hv : values.getLast? with
      | none =>
        simp only [List.getLast?_eq_none_iff] at hv
        simp [hv]
      | some v =>
        have : values ≠ [] := by
          intro h
          simp [h] at hv
        simp [this]
    · obtain ⟨c, hc, hcm⟩ := last_child hne
      have hpos : 0 < children.length := List.length_pos.2 hne
      rw [findMax_internal (by omega) hc, rightmostLeafKeys_internal (by omega) hc]
      exact ih c hcm

theorem allKeys_subtree : ∀ t n, n ∈ subtrees t → ∀ k ∈ allKeys n, k ∈ allKeys t := by
  intro t
  induction t using induct with
  | h M values children ih =>
    intro n hn k hk
    simp only [subtrees, List.mem_cons, mem_subtreesList] at hn
    rcases hn with rfl | ⟨c, hc, hnc⟩
    · exact hk
    · exact mem_allKeys_node.2 (Or.inr ⟨c, hc, ih c hc n hnc k hk⟩)

theorem mem_subtrees_node {n : MTree} {M : Int} {values : List Int} {children : List MTree} :
    n ∈ subtrees (node M values children) ↔
      n = node M values children ∨ ∃ c ∈ children, n ∈ subtrees c := by
  simp [subtrees, mem_subtreesList]

/-- On a well-formed compact tree that holds `k`, `remove(k)` either raises the structural
error with the tree untouched, and then `k` sits over an empty rightmost leaf, or raises
nothing, and then it does not. -/
theorem remove_raises_iff {M : Int} (hM : 2 ≤ M) : ∀ t, wellFormed M t = true →
    compact M t = true → ∀ k, k ∈ flat t →
    (remove t k = ⟨t, some .runtimeError⟩ ∧ keyOverEmptyLeaf t k) ∨
    ((remove t k).raised = none ∧ ¬ keyOverEmptyLeaf t k) := by
  intro t
  induction t using induct with
  | h M' values children ih =>
    intro hwf hcomp k hk
    obtain ⟨hMM, hs, hshape, hb, hch⟩ := wellFormed_node.1 hwf
    subst hMM
    have hsearch : search (node M' values children) k = true := (search_iff M' _ hwf k).2 hk
    by_cases hne : children = []
    · subst hne
      right
      refine ⟨remove_leaf hsearch, ?_⟩
      rintro ⟨M2, vs, chs, i, l, hn, hchs, _, _, _⟩
      simp only [subtrees, subtreesList, List.mem_singleton] at hn
      cases hn
      exact hchs rfl
    · have hlen : children.length = values.length + 1 := hshape.resolve_left hne
      have hB := (boundsOK_iff hlen).1 hb
      obtain ⟨h1, h2, hcc⟩ := (compact_internal hne).1 hcomp
      by_cases hvm : k ∈ values
      · obtain ⟨i, c, hi, hcase⟩ := remove_own_key (by omega) hwf hlen hvm
        have hblocked_iff : keyOverEmptyLeaf (node M' values children) k →
            rightmostLeafKeys c = [] := by
          rintro ⟨M2, vs, chs, i', l, hn, hchs, hvi, hli, hl⟩
          rcases mem_subtrees_node.1 hn with heq | ⟨d, hd, hnd⟩
          · cases heq
            rcases hcase with ⟨hlt, _⟩ | ⟨_, hc, _⟩
            · omega
            · have := sorted_index_unique hs hvi hi
              subst this
              rw [hc] at hli
              cases hli
              exact hl
          · exfalso
            have hkN : k ∈ allKeys (node M2 vs chs) :=
              mem_allKeys_node.2 (Or.inl (List.mem_iff_getElem?.2 ⟨_, hvi⟩))
            exact own_key_not_in_child hs hlen hB hvm hd (allKeys_subtree d _ hnd k hkN)
        rcases hcase with ⟨hlt, _⟩ | ⟨_, hc, ⟨herr, h⟩ | ⟨⟨m, hok⟩, h⟩⟩
        · omega
        · left
          exact ⟨h, M', values, children, i, c, by simp [subtrees], hne, hi, hc,
            (findMax_error_iff c).1 herr⟩
        · right
          constructor
          · rw [h]
            obtain ⟨t', h1', _, _⟩ := buildTree_spec (by omega : 1 ≤ M') [] []
              (nodup_of_increasing ((flat_sorted hwf).sublist
                (List.erase_sublist k (flat (node M' values children)))))
            have : buildTree (fresh M') ((flat (node M' values children)).erase k) =
                ⟨t', none⟩ := h1'
            rw [this]
          · intro hbl
            obtain ⟨e, he⟩ := (findMax_error_iff c).2 (hblocked_iff hbl)
            rw [hok] at he
            cases he
      · have hneg : ¬ 0 ≤ binarySearch values k := fun h =>
          hvm ((binarySearch_nonneg_iff k hs).1 h)
        obtain ⟨c, hc, hiff⟩ := child_of_key hs hlen hB hvm
        have hcm : c ∈ children := List.mem_iff_getElem?.2 ⟨_, hc⟩
        have hkc : k ∈ flat c := by
          rw [mem_flat_iff (hch c hcm)]
          rcases mem_allKeys_node.1 ((mem_flat_iff hwf k).1 hk) with h | h
          · exact absurd h hvm
          · exact hiff.1 h
        have hdown : keyOverEmptyLeaf (node M' values children) k → keyOverEmptyLeaf c k := by
          rintro ⟨M2, vs, chs, i', l, hn, hchs, hvi, hli, hl⟩
          rcases mem_subtrees_node.1 hn with heq | ⟨d, hd, hnd⟩
          · cases heq
            exact absurd (List.mem_iff_getElem?.2 ⟨_, hvi⟩) hvm
          · have hkN : k ∈ allKeys (node M2 vs chs) :=
              mem_allKeys_node.2 (Or.inl (List.mem_iff_getElem?.2 ⟨_, hvi⟩))
            obtain ⟨j, hj⟩ := List.mem_iff_getElem?.1 hd
            have hji := child_index_of_key hs hlen hB hvm hj (allKeys_subtree d _ hnd k hkN)
            subst hji
            rw [hc] at hj
            cases hj
            exact ⟨M2, vs, chs, i', l, hnd, hchs, hvi, hli, hl⟩
        rw [remove_descend hsearch (isEmpty_false_of_length hlen) hneg hc]
        rcases ih c hcm (hch c hcm) (hcc c hcm) k hkc with ⟨hrt, hbl⟩ | ⟨hnone, hnbl⟩
        · left
          obtain ⟨M2, vs, chs, i', l, hn, hrest⟩ := hbl
          refine ⟨by rw [hrt]; simp [set_self hc], M2, vs, chs, i', l, ?_, hrest⟩
          exact mem_subtrees_node.2 (Or.inr ⟨c, hcm, hn⟩)
        · right
          exact ⟨hnone, fun h => hnbl (hdown h)⟩

/-- C19: in a tree reachable from a fresh `MTree(M)`, `M ≥ 2`, `remove(k)` of a present key
raises the structural `std::runtime_error` if and only if `k` is the key of an internal node
whose left child subtree has an empty rightmost leaf; then the whole tree is left as it
was, and in every other case `remove(k)` returns normally. -/
theorem remove_structural_error_iff (M : Int) (t : MTree) (k : Int) (xs : List Int)
    (hM : 2 ≤ M) (hr : Reachable M t) (hxs : collect_values t = .ok xs) (hk : k ∈ xs) :
    ((remove t k).raised = some .runtimeError ↔ keyOverEmptyLeaf t k) ∧
    ((remove t k).raised = some .runtimeError → (remove t k).tree = t) ∧
    ((remove t k).raised ≠ some .runtimeError → (remove t k).raised = none) := by
  have hwf := reachable_wellFormed (by omega : 1 ≤ M) hr
  have hx := collect_values_inj hwf hxs
  subst hx
  rcases remove_raises_iff hM t hwf (reachable_compact hM hr) k hk with
    ⟨h, hbl⟩ | ⟨h, hnbl⟩
  · rw [h]
    simp [hbl]
  · rw [h]
    simp [hnbl]

theorem remove_structural_error_iff_witness :
    (2 : Int) ≤ 3 ∧ Reachable 3 emptiedLeafTree ∧
      collect_values emptiedLeafTree = .ok [2, 3] ∧ (2 : Int) ∈ ([2, 3] : List Int) ∧
      ((remove emptiedLeafTree 2).raised = some .runtimeError ↔
        keyOverEmptyLeaf emptiedLeafTree 2) ∧
      ((remove emptiedLeafTree 2).raised = some .runtimeError →
        (remove emptiedLeafTree 2).tree = emptiedLeafTree) ∧
      ((remove emptiedLeafTree 2).raised ≠ some .runtimeError →
        (remove emptiedLeafTree 2).raised = none) :=
  ⟨by decide,
    Reachable.remove 1
      (Reachable.buildTree [1, 2, 3] Reachable.fresh (by decide)
        (rfl : buildTree (fresh 3) [1, 2, 3] = ⟨node 3 [2] [node 3 [1] [], node 3 [3] []], none⟩))
      rfl,
    rfl, by decide,
    remove_structural_error_iff 3 emptiedLeafTree 2 [2, 3] (by decide)
      (Reachable.remove 1
        (Reachable.buildTree [1, 2, 3] Reachable.fresh (by decide)
          (rfl : buildTree (fresh 3) [1, 2, 3] =
            ⟨node 3 [2] [node 3 [1] [], node 3 [3] []], none⟩))
        rfl)
      rfl (by decide)⟩

/-! ### Building from increasing keys -/

theorem binarySearch_all_lt {values : List Int} {x : Int}
    (hs : values.Pairwise (fun a b => a < b)) (hlt : ∀ y ∈ values, y < x) :
    ¬ 0 ≤ binarySearch values x ∧ binarySearchHelper values x = values.length := by
  have hv : x ∉ values := fun h => lt_irrefl _ (hlt x h)
  refine ⟨fun h => hv ((binarySearch_nonneg_iff x hs).1 h), ?_⟩
  obtain ⟨h0, h1, _, hhi⟩ := binarySearchHelper_spec hs hv
  by_contra hne
  have hlt' : (binarySearchHelper values x).toNat < values.length := by omega
  have h2 := hhi _ _ (List.getElem?_eq_getElem hlt') (by omega)
  have h3 := hlt _ (List.getElem_mem hlt')
  omega

theorem search_spine (M : Int) (x : Int) : ∀ (sp : List (List Int × Int)) (last : List Int),
    (∀ p ∈ sp, p.2 < x) → last.Pairwise (fun a b => a < b) → (∀ y ∈ last, y < x) →
    search (spineTree M sp last) x = false
  | [], last, _, hs, hlt => by
    simp [spineTree, search, (binarySearch_all_lt hs hlt).1]
  | (l, k) :: rest, last, hsp, hs, hlt => by
    have hk : k < x := hsp (l, k) (List.mem_cons_self _ _)
    obtain ⟨h1, h2⟩ := @binarySearch_all_lt [k] x (by simp)
      (by simpa using hk)
    have ih := search_spine M x rest last (fun p hp => hsp p (List.mem_cons_of_mem _ hp)) hs hlt
    simp only [spineTree, search, ge_iff_le, if_neg h1, h2]
    simp [searchAt, ih]

theorem insertValue_spine {m : Nat} (hm : 2 ≤ m) (x : Int) :
    ∀ (sp : List (List Int × Int)) (last : List Int),
    (∀ p ∈ sp, p.2 < x) → last.Pairwise (fun a b => a < b) → (∀ y ∈ last, y < x) →
    last.length < m →
    (last.length + 1 < m →
      insertValue (spineTree m sp last) x = ⟨spineTree m sp (last ++ [x]), none⟩) ∧
    (last.length + 1 = m → ∃ v, (last ++ [x])[m / 2]? = some v ∧
      insertValue (spineTree m sp last) x =
        ⟨spineTree m (sp ++ [((last ++ [x]).take (m / 2), v)])
          ((last ++ [x]).drop (m / 2 + 1)), none⟩)
  | [], last, _, hs, hlt, hlen => by
    have hsearch := search_spine m x [] last (by simp) hs hlt
    simp only [spineTree] at hsearch
    obtain ⟨_, hidx⟩ := binarySearch_all_lt hs hlt
    have hins : insertValue (node m last []) x = splitIfFull (node m (last ++ [x]) []) := by
      simp [insertValue, hsearch, hidx, insertAt]
    constructor
    · intro h
      have hcap : reachedCapacity m (last ++ [x]) = false := by
        simp [reachedCapacity]
        omega
      simp [spineTree, hins, splitIfFull, hcap]
    · intro h
      have hcap : reachedCapacity m (last ++ [x]) = true := by
        simp [reachedCapacity]
        omega
      have hl : (last ++ [x]).length = m := by simp [h]
      have hmid : m / 2 < (last ++ [x]).length := by omega
      refine ⟨_, List.getElem?_eq_getElem hmid, ?_⟩
      have hx' : (last ++ [x])[(last ++ [x]).length / 2]? = some (last ++ [x])[m / 2] := by
        rw [List.getElem?_eq_some]
        exact ⟨by omega, by simp only [hl]⟩
      simp only [spineTree, List.nil_append, hins, splitIfFull, hcap, if_true]
      rw [split_node_eq hx' (Or.inl rfl), hl]
      simp
  | (l, k) :: rest, last, hsp, hs, hlt, hlen => by
    have hk : k < x := hsp (l, k) (List.mem_cons_self _ _)
    have hsp' : ∀ p ∈ rest, p.2 < x := fun p hp => hsp p (List.mem_cons_of_mem _ hp)
    have hsearch := search_spine m x ((l, k) :: rest) last hsp hs hlt
    simp only [spineTree] at hsearch
    obtain ⟨_, hidx⟩ := @binarySearch_all_lt [k] x (by simp)
      (by simpa using hk)
    have hcap : reachedCapacity m [k] = false := by
      simp [reachedCapacity]
      omega
    have hins : insertValue (node m [k] [node m l [], spineTree m rest last]) x =
        match (insertValue (spineTree m rest last) x).raised with
        | some e => ⟨node m [k] [node m l [], (insertValue (spineTree m rest last) x).tree],
            some e⟩
        | none => ⟨node m [k] [node m l [], (insertValue (spineTree m rest last) x).tree],
            none⟩ := by
      simp only [insertValue, hsearch, Bool.false_eq_true, if_false, hidx]
      simp only [List.isEmpty_cons, Bool.false_eq_true, if_false, List.length_singleton,
        Nat.cast_one, Int.toNat_one, insertValueAt]
      cases (insertValue (spineTree m rest last) x).raised with
      | none => simp [splitIfFull, hcap]
      | some e => rfl
    obtain ⟨ih1, ih2⟩ := insertValue_spine hm x rest last hsp' hs hlt hlen
    constructor
    · intro h
      simp only [spineTree, hins, ih1 h]
    · intro h
      obtain ⟨v, hv, hiv⟩ := ih2 h
      refine ⟨v, hv, ?_⟩
      simp only [spineTree, hins, hiv, List.cons_append]
      rfl

theorem internalCount_spine (M : Int) : ∀ (sp : List (List Int × Int)) (last : List Int),
    internalCount (spineTree M sp last) = sp.length
  | [], last => by simp [spineTree, internalCount]
  | (l, k) :: rest, last => by
    simp [spineTree, internalCount, internalCountList, internalCount_spine M rest last]
    omega

theorem spineCount_lt {m n h l : Nat} (hm : 2 ≤ m) (hc : SpineCount m n h l) : l < m := by
  rcases hc with ⟨h1, _, h3⟩ | ⟨q, r, hr, _, _, hl⟩
  · omega
  · omega

theorem spineCount_stay {m n h l : Nat} (hc : SpineCount m n h l)
    (hl : l + 1 < m) : SpineCount m (n + 1) h (l + 1) := by
  rcases hc with ⟨h1, h2, h3⟩ | ⟨q, r, hr, hn, hh, hl'⟩
  · exact Or.inl ⟨by omega, h2, by omega⟩
  · exact Or.inr ⟨q, r + 1, by omega, by omega, hh, by omega⟩

theorem spineCount_split {m n h l : Nat} (hm : 2 ≤ m) (hc : SpineCount m n h l)
    (hl : l + 1 = m) : SpineCount m (n + 1) (h + 1) (m - (m / 2 + 1)) := by
  rcases hc with ⟨h1, h2, h3⟩ | ⟨q, r, hr, hn, hh, hl'⟩
  · exact Or.inr ⟨0, 0, by omega, by simp; omega, by omega, by omega⟩
  · refine Or.inr ⟨q + 1, 0, by omega, ?_, by omega, by omega⟩
    rw [Nat.add_mul, Nat.one_mul]
    omega

theorem spineCount_formula {m n h l : Nat} (hm : 2 ≤ m) (hc : SpineCount m n h l) :
    (h : Int) = if (n : Int) < m then 0 else 1 + ((n : Int) - m) / ((m : Int) / 2 + 1) := by
  rcases hc with ⟨h1, h2, _⟩ | ⟨q, r, hr, hn, hh, _⟩
  · have : (n : Int) < m := by omega
    rw [if_pos this, h2]
    rfl
  · have hge : ¬ (n : Int) < m := by
      have : m ≤ n := by
        rw [hn]
        omega
      omega
    rw [if_neg hge]
    have hS : ((m : Int) / 2 + 1) = (((m / 2 + 1 : Nat)) : Int) := by
      push_cast
      rfl
    have hsub : (n : Int) - m = (r : Int) + (q : Int) * (((m / 2 + 1 : Nat)) : Int) := by
      rw [hn]
      push_cast
      ring
    rw [hS, hsub, Int.add_mul_ediv_right _ _ (by omega),
      Int.ediv_eq_zero_of_lt (by omega) (by omega), hh]
    push_cast
    ring

theorem insertAll_spine {m : Nat} (hm : 2 ≤ m) : ∀ (xs : List Int)
    (sp : List (List Int × Int)) (last : List Int) (n : Nat),
    xs.Pairwise (fun a b => a < b) →
    (∀ y ∈ xs, (∀ p ∈ sp, p.2 < y) ∧ ∀ z ∈ last, z < y) →
    last.Pairwise (fun a b => a < b) → (∀ p ∈ sp, p.1.length = m / 2) →
    SpineCount m n sp.length last.length →
    ∃ sp' last', insertAll (spineTree m sp last) xs = ⟨spineTree m sp' last', none⟩ ∧
      (∀ p ∈ sp', p.1.length = m / 2) ∧ SpineCount m (n + xs.length) sp'.length last'.length
  | [], sp, last, n, _, _, _, hleft, hc =>
    ⟨sp, last, by simp [insertAll], hleft, by simpa using hc⟩
  | x :: xs, sp, last, n, hxs, hbound, hs, hleft, hc => by
    obtain ⟨hxsp, hxl⟩ := hbound x (List.mem_cons_self _ _)
    have hlen := spineCount_lt hm hc
    obtain ⟨h1, h2⟩ := insertValue_spine hm x sp last hxsp hs hxl hlen
    have hxs' := List.Pairwise.of_cons hxs
    have hxy : ∀ y ∈ xs, x < y := fun y hy => List.rel_of_pairwise_cons hxs hy
    have hl' : ∀ y ∈ xs, ∀ z ∈ last ++ [x], z < y := by
      intro y hy z hz
      rcases List.mem_append.1 hz with h | h
      · exact (hbound y (List.mem_cons_of_mem _ hy)).2 z h
      · simp only [List.mem_singleton] at h
        rw [h]
        exact hxy y hy
    have hs' : (last ++ [x]).Pairwise (fun a b => a < b) := by
      rw [List.pairwise_append]
      refine ⟨hs, by simp, ?_⟩
      intro a ha b hb
      simp only [List.mem_singleton] at hb
      rw [hb]
      exact hxl a ha
    by_cases hsplit : last.length + 1 < m
    · obtain ⟨sp', last', h3, h4, h5⟩ := insertAll_spine hm xs sp (last ++ [x]) (n + 1) hxs'
        (fun y hy => ⟨(hbound y (List.mem_cons_of_mem _ hy)).1, hl' y hy⟩) hs' hleft
        (by simpa using spineCount_stay hc hsplit)
      refine ⟨sp', last', by simp only [insertAll, h1 hsplit, h3], h4, ?_⟩
      simpa [Nat.add_assoc, Nat.add_comm 1] using h5
    · have heq : last.length + 1 = m := by omega
      obtain ⟨v, hv, hins⟩ := h2 heq
      have hvm : v ∈ last ++ [x] := List.mem_iff_getElem?.2 ⟨_, hv⟩
      obtain ⟨sp', last', h3, h4, h5⟩ := insertAll_spine hm xs
        (sp ++ [((last ++ [x]).take (m / 2), v)]) ((last ++ [x]).drop (m / 2 + 1)) (n + 1) hxs'
        (fun y hy => ⟨fun p hp => by
            rcases List.mem_append.1 hp with h | h
            · exact (hbound y (List.mem_cons_of_mem _ hy)).1 p h
            · simp only [List.mem_singleton] at h
              rw [h]
              exact hl' y hy v hvm,
          fun z hz => hl' y hy z (List.mem_of_mem_drop hz)⟩)
        (hs'.sublist (List.drop_sublist _ _))
        (fun p hp => by
          rcases List.mem_append.1 hp with h | h
          · exact hleft p h
          · simp only [List.mem_singleton] at h
            rw [h]
            simp only [List.length_take, List.length_append, List.length_singleton]
            omega)
        (by
          have := spineCount_split hm hc heq
          simpa [heq] using this)
      refine ⟨sp', last', by simp only [insertAll, hins, h3], h4, ?_⟩
      simpa [Nat.add_assoc, Nat.add_comm 1] using h5

/-- C20: for `M ≥ 2` and strictly increasing keys, `buildTree` on a fresh `MTree(M)` yields
a chain through right children in which the left child of every internal node is a leaf
with `M / 2` keys, and the number of internal nodes is `0` for fewer than `M` keys and
`1 + (n - M) / (M / 2 + 1)` for `n ≥ M` keys. -/
theorem buildTree_sorted_shape (M : Int) (xs : List Int) (hM : 2 ≤ M)
    (hxs : xs.Pairwise (fun a b => a < b)) :
    ∃ spine last, buildTree (fresh M) xs = ⟨spineTree M spine last, none⟩ ∧
      (∀ p ∈ spine, (p.1.length : Int) = M / 2) ∧
      internalCount (spineTree M spine last) = spine.length ∧
      (spine.length : Int) =
        if (xs.length : Int) < M then 0 else 1 + ((xs.length : Int) - M) / (M / 2 + 1) := by
  obtain ⟨m, rfl⟩ := Int.eq_ofNat_of_zero_le (by omega : 0 ≤ M)
  have hm : 2 ≤ m := by omega
  obtain ⟨sp, last, h1, h2, h3⟩ := insertAll_spine hm xs [] [] 0 hxs
    (fun y _ => ⟨by simp, by simp⟩) (by simp) (by simp) (Or.inl ⟨by omega, rfl, rfl⟩)
  refine ⟨sp, last, by simpa [buildTree, fresh, spineTree] using h1, ?_,
    internalCount_spine _ sp last, ?_⟩
  · intro p hp
    have := h2 p hp
    omega
  · have := spineCount_formula hm h3
    simpa using this

theorem buildTree_sorted_shape_witness :
    (2 : Int) ≤ 3 ∧ ([1, 2, 3, 4, 5, 6, 7] : List Int).Pairwise (fun a b => a < b) ∧
    ∃ spine last, buildTree (fresh 3) [1, 2, 3, 4, 5, 6, 7] = ⟨spineTree 3 spine last, none⟩ ∧
      (∀ p ∈ spine, (p.1.length : Int) = 3 / 2) ∧
      internalCount (spineTree 3 spine last) = spine.length ∧
      (spine.length : Int) =
        if ((([1, 2, 3, 4, 5, 6, 7] : List Int).length : Nat) : Int) < 3 then 0
        else 1 + (((([1, 2, 3, 4, 5, 6, 7] : List Int).length : Nat) : Int) - 3) / (3 / 2 + 1) :=
  ⟨by decide, by decide, buildTree_sorted_shape 3 [1, 2, 3, 4, 5, 6, 7] (by decide) (by decide)⟩

end MTree
